import Mathlib

/-!
# MD5 benchmark harness: the generic MD5 engine and its drivers

A shallow embedding of `main.cpp`.  Bytes and machine words are natural
numbers; arithmetic that can wrap in the source is reduced explicitly.
Memory that the source addresses through pointers is passed explicitly:
the caller's buffer is a list of bytes, the local 64-byte scratch array is
a list of bytes of length 64, and an access outside either is a fault
(`none`).
-/

namespace MD5Bench

/-! ## Hash state and engine memory -/

/-- The hash state `MD5_STATE<HT>`: the four chaining words written by
`md5_init` (the struct itself is declared in `md5-x86-asm.h`). -/
structure MD5_STATE where
  A : Nat
  B : Nat
  C : Nat
  D : Nat
deriving DecidableEq, Repr

/-- The two places where `md5` invokes the compression step: `fn(state, _src)`
in the main loop and `fn(state, block)` in the finalization loop. -/
inductive CallSite where
  | full_block
  | finalization
deriving DecidableEq, Repr

/-- One invocation of the compression step: where it was made, the hash state
it was handed, and the 64 bytes its block pointer addressed. -/
structure Call where
  site : CallSite
  state : MD5_STATE
  data : List Nat
deriving DecidableEq, Repr

/-- The memory `md5` works on: the hash state behind `state`, the caller's
buffer behind `src`, the local `char block[64]`, and (as a record of the run)
the invocations of the compression step so far. -/
structure Mem where
  state : MD5_STATE
  src : List Nat
  block : List Nat
  calls : List Call
deriving DecidableEq, Repr

/-- The content of an uninitialised `char block[64]`: any 64 bytes. -/
abbrev Scratch := { l : List Nat // l.length = 64 }

/-- A compression step `void fn(MD5_STATE*, const void*)`: it reads the state
and the 64 bytes behind its second argument and writes the state. -/
abbrev Step := MD5_STATE → List Nat → MD5_STATE

/-- `size_t` subtraction: the difference modulo `2^64`. -/
def sub_size_t (a b : Nat) : Nat := (a + 2 ^ 64 - b % 2 ^ 64) % 2 ^ 64

/-- The object representation of a `w`-byte unsigned integer on x86: its
bytes, least significant first. -/
def le_bytes : Nat → Nat → List Nat
  | 0, _ => []
  | w + 1, v => v % 256 :: le_bytes w (v / 256)

/-- Reading `n` bytes of the caller's buffer at offset `off`; a read that
leaves the buffer is a fault. -/
def read_src (src : List Nat) (off n : Nat) : Option (List Nat) :=
  if off + n ≤ src.length then some ((src.drop off).take n) else none

/-- Writing `data` into the scratch block at offset `off`; a write that leaves
the 64-byte array is a fault. -/
def write_block (m : Mem) (off : Nat) (data : List Nat) : Option Mem :=
  if off + data.length ≤ 64 then
    some { m with block := m.block.take off ++ data ++ m.block.drop (off + data.length) }
  else none

/-- `memset(block + off, 0, n)`. -/
def memset_block (m : Mem) (off n : Nat) : Option Mem :=
  write_block m off (List.replicate n 0)

/-- Invoking the compression step at `site` on the bytes `data`. -/
def call_fn (fn : Step) (site : CallSite) (m : Mem) (data : List Nat) : Mem :=
  { m with state := fn m.state data, calls := m.calls ++ [⟨site, m.state, data⟩] }

/-! ## The engine -/

/-- `md5_init`: overwrite the four words with the RFC1321 constants. -/
def md5_init (state : MD5_STATE) : MD5_STATE :=
  { state with A := 0x67452301, B := 0xefcdab89, C := 0x98badcfe, D := 0x10325476 }

/-- The main loop of `md5`:
`for(; len >= 64; len -= 64) { fn(state, _src); _src += 64; }`.
Returns the memory, the cursor `_src` (as an offset into the buffer) and the
remaining `len`. -/
def main_loop (fn : Step) (m : Mem) (_src len : Nat) : Option (Mem × Nat × Nat) :=
  if len ≥ 64 then
    match read_src m.src _src 64 with
    | some data => main_loop fn (call_fn fn .full_block m data) (_src + 64) (len - 64)
    | none => none
  else some (m, _src, len)
termination_by len
decreasing_by omega

/-- The finalization loop of `md5`:
`for(int iter = (len <= 64-8); iter < 2; iter++) { ... fn(state, block); }`. -/
def final_loop (fn : Step) (totalLen : Nat) (m : Mem) (len iter : Nat) : Option Mem :=
  if iter < 2 then
    if iter = 0 then
      match memset_block m len (sub_size_t 64 len) with
      | some m1 => final_loop fn totalLen (call_fn fn .finalization m1 m1.block) 0 (iter + 1)
      | none => none
    else
      match memset_block m len (sub_size_t (64 - 8) len) with
      | some m1 =>
        match write_block m1 (64 - 8) (le_bytes 8 totalLen) with
        | some m2 => final_loop fn totalLen (call_fn fn .finalization m2 m2.block) len (iter + 1)
        | none => none
      | none => none
  else some m
termination_by 2 - iter
decreasing_by all_goals omega

/-- The engine `md5<HT, fn>(state, src, len)`, run on a prior hash state, a
buffer, the prior content of the scratch array and the `size_t` length. -/
def md5 (fn : Step) (state : MD5_STATE) (src : List Nat) (junk : Scratch) (len : Nat) :
    Option Mem :=
  let m0 : Mem := { state := md5_init state, src := src, block := junk.val, calls := [] }
  let totalLen := (len <<< 3) % 2 ^ 64
  match main_loop fn m0 0 len with
  | none => none
  | some (m1, _src, len1) =>
    let len2 := len1 &&& 63
    match read_src m1.src _src len2 with
    | none => none
    | some tail =>
      match write_block m1 0 tail with
      | none => none
      | some m2 =>
        match write_block m2 len2 [0x80] with
        | none => none
        | some m3 =>
          let len3 := len2 + 1
          final_loop fn totalLen m3 len3 (if len3 ≤ 64 - 8 then 1 else 0)

/-! ## The RFC1321 reference -/

/-- The consecutive 64-byte blocks of a byte string: the first `n` of them. -/
def blocks : Nat → List Nat → List (List Nat)
  | 0, _ => []
  | n + 1, l => l.take 64 :: blocks n (l.drop 64)

/-- All full 64-byte blocks of a byte string, in order. -/
def blocks_of (l : List Nat) : List (List Nat) := blocks (l.length / 64) l

/-- The RFC1321 initial state (section 3.3). -/
def rfc_init : MD5_STATE :=
  { A := 0x67452301, B := 0xefcdab89, C := 0x98badcfe, D := 0x10325476 }

/-- Reduction to a 32-bit word. -/
def u32 (x : Nat) : Nat := x % 2 ^ 32

/-- Bitwise complement of a 32-bit word. -/
def not32 (x : Nat) : Nat := 0xffffffff ^^^ u32 x

/-- Circular left shift of a 32-bit word by `s` bits. -/
def rotl32 (x s : Nat) : Nat := u32 (u32 x <<< s) ||| (u32 x >>> (32 - s))

/-- The table `T[1..64]` of RFC1321 section 3.4: `T[i] = floor(2^32 * |sin i|)`. -/
def rfc_T : List Nat :=
  [0xd76aa478, 0xe8c7b756, 0x242070db, 0xc1bdceee,
   0xf57c0faf, 0x4787c62a, 0xa8304613, 0xfd469501,
   0x698098d8, 0x8b44f7af, 0xffff5bb1, 0x895cd7be,
   0x6b901122, 0xfd987193, 0xa679438e, 0x49b40821,
   0xf61e2562, 0xc040b340, 0x265e5a51, 0xe9b6c7aa,
   0xd62f105d, 0x02441453, 0xd8a1e681, 0xe7d3fbc8,
   0x21e1cde6, 0xc33707d6, 0xf4d50d87, 0x455a14ed,
   0xa9e3e905, 0xfcefa3f8, 0x676f02d9, 0x8d2a4c8a,
   0xfffa3942, 0x8771f681, 0x6d9d6122, 0xfde5380c,
   0xa4beea44, 0x4bdecfa9, 0xf6bb4b60, 0xbebfbc70,
   0x289b7ec6, 0xeaa127fa, 0xd4ef3085, 0x04881d05,
   0xd9d4d039, 0xe6db99e5, 0x1fa27cf8, 0xc4ac5665,
   0xf4292244, 0x432aff97, 0xab9423a7, 0xfc93a039,
   0x655b59c3, 0x8f0ccc92, 0xffeff47d, 0x85845dd1,
   0x6fa87e4f, 0xfe2ce6e0, 0xa3014314, 0x4e0811a1,
   0xf7537e82, 0xbd3af235, 0x2ad7d2bb, 0xeb86d391]

/-- The per-round shift amounts of RFC1321 section 3.4, four per round. -/
def rfc_S : List Nat :=
  [7, 12, 17, 22, 5, 9, 14, 20, 4, 11, 16, 23, 6, 10, 15, 21]

/-- The shift amount of operation `i` (0-based, `i < 64`). -/
def rfc_shift (i : Nat) : Nat := rfc_S.getD (4 * (i / 16) + i % 4) 0

/-- The message word used by operation `i` (0-based, `i < 64`). -/
def rfc_index (i : Nat) : Nat :=
  if i < 16 then i
  else if i < 32 then (5 * i + 1) % 16
  else if i < 48 then (3 * i + 5) % 16
  else (7 * i) % 16

/-- The auxiliary functions F, G, H, I of RFC1321 section 3.4, chosen by the
round that operation `i` belongs to. -/
def rfc_aux (i x y z : Nat) : Nat :=
  if i < 16 then (x &&& y) ||| (not32 x &&& z)
  else if i < 32 then (x &&& z) ||| (y &&& not32 z)
  else if i < 48 then x ^^^ y ^^^ z
  else y ^^^ (x ||| not32 z)

/-- Decoding a 32-bit word from four bytes, least significant first. -/
def le_word (bs : List Nat) : Nat :=
  bs.foldr (fun b acc => b % 256 + 256 * acc) 0

/-- The sixteen message words `X[0..15]` of a 64-byte block. -/
def rfc_words (block : List Nat) : List Nat :=
  (List.range 16).map (fun j => le_word ((block.drop (4 * j)).take 4))

/-- One operation `[abcd k s i]` of RFC1321 section 3.4, followed by the
rotation of the roles of the four registers. -/
def rfc_op (X : List Nat) (r : Nat × Nat × Nat × Nat) (i : Nat) : Nat × Nat × Nat × Nat :=
  match r with
  | (a, b, c, d) =>
    (d, u32 (b + rotl32 (a + rfc_aux i b c d + X.getD (rfc_index i) 0 + rfc_T.getD i 0)
      (rfc_shift i)), b, c)

/-- Modelled from the spec: the RFC1321 block-compression function, which every
conforming compression step (`md5_block_std` and the other kernels declared in
`md5-x86-asm.h`, outside `main.cpp`) must compute: the 64 operations of
section 3.4 on the block, then the addition of the incoming state. -/
def rfc_compress : Step := fun st block =>
  match (List.range 64).foldl (rfc_op (rfc_words block)) (st.A, st.B, st.C, st.D) with
  | (a, b, c, d) =>
    { A := u32 (st.A + a), B := u32 (st.B + b), C := u32 (st.C + c), D := u32 (st.D + d) }

/-- The 16-byte digest of a hash state: the words A, B, C, D, each least
significant byte first (RFC1321 section 3.5). -/
def digest_bytes (st : MD5_STATE) : List Nat :=
  le_bytes 4 st.A ++ le_bytes 4 st.B ++ le_bytes 4 st.C ++ le_bytes 4 st.D

/-- The number of zero bytes RFC1321 padding inserts between the `0x80` byte
and the length field of a `len`-byte message. -/
def rfc_pad_zeros (len : Nat) : Nat := (64 - (len + 9) % 64) % 64

/-- The RFC1321-padded message (sections 3.1 and 3.2): the message, the byte
`0x80`, zero bytes up to 56 modulo 64, and the low 64 bits of the bit length,
least significant byte first. -/
def rfc_pad (msg : List Nat) : List Nat :=
  msg ++ [0x80] ++ List.replicate (rfc_pad_zeros msg.length) 0
    ++ le_bytes 8 ((8 * msg.length) % 2 ^ 64)

/-- Modelled from the spec: the baseline oracle (`MD5` of the external library,
called by `calculate_md5`), as the RFC1321 digest of the buffer. -/
def rfc_md5 (msg : List Nat) : List Nat :=
  digest_bytes ((blocks_of (rfc_pad msg)).foldl rfc_compress rfc_init)

/-! ## What a run of the engine amounts to -/

/-- The record of invoking `fn` at `site` on each of `bs` in turn, from state
`st`. -/
def trace_of (fn : Step) (site : CallSite) : MD5_STATE → List (List Nat) → List Call
  | _, [] => []
  | st, b :: bs => ⟨site, st, b⟩ :: trace_of fn site (fn st b) bs

/-- The finalization block or blocks for the leftover bytes `tail` and the
length field `totalLen`. -/
def final_blocks (tail : List Nat) (totalLen : Nat) : List (List Nat) :=
  if tail.length ≤ 55 then
    [tail ++ [0x80] ++ List.replicate (55 - tail.length) 0 ++ le_bytes 8 totalLen]
  else
    [tail ++ [0x80] ++ List.replicate (63 - tail.length) 0,
     List.replicate 56 0 ++ le_bytes 8 totalLen]

/-- The leftover bytes of a `len`-byte message after its full blocks. -/
def leftover (src : List Nat) (len : Nat) : List Nat :=
  (src.drop (64 * (len / 64))).take (len % 64)


/-! ## Workload and traversal order -/

/-- A packet: the bytes behind `buf` and the recorded `int size`. -/
structure Packet where
  buf : List Nat
  size : Int
deriving DecidableEq, Repr

/-- `static_cast<unsigned char>(x)`: the value modulo 256. -/
def to_uchar (x : Int) : Nat := (x % 256).toNat

/-- Conversion of an `int` to `size_t`: the value modulo `2^64`. -/
def to_size_t (n : Int) : Nat := (n % 2 ^ 64).toNat

/-- `std::make_unique<unsigned char[]>(n)`: `n` zero bytes; a negative `n`
converts to a size that cannot be allocated and the call throws. -/
def make_unique (n : Int) : Option (List Nat) :=
  if 0 ≤ n then some (List.replicate n.toNat 0) else none

/-- The loop of `randomizeBuffer`:
`for (int i = 0; i < packetSize; ++i) buf[i] = static_cast<unsigned char>(std::rand() % 256);`.
The random source is the sequence `rand` of the values `std::rand()` returns,
`pos` counts the calls made so far; a store outside the buffer is a fault. -/
def randomizeBuffer_loop (rand : Nat → Int) (packetSize : Int) (buf : List Nat) (pos i : Nat) :
    Option (List Nat × Nat) :=
  if (i : Int) < packetSize then
    if i < buf.length then
      randomizeBuffer_loop rand packetSize
        (buf.set i (to_uchar ((rand pos).tmod 256))) (pos + 1) (i + 1)
    else none
  else some (buf, pos)
termination_by (packetSize - i).toNat
decreasing_by omega

/-- `randomizeBuffer(buf, packetSize)`. -/
def randomizeBuffer (rand : Nat → Int) (buf : List Nat) (packetSize : Int) (pos : Nat) :
    Option (List Nat × Nat) :=
  randomizeBuffer_loop rand packetSize buf pos 0

/-- The loop `while (count--) { ... }` of `randomizePackets`. -/
def randomizePackets_loop (rand : Nat → Int) :
    Nat → List Packet → Nat → Option (List Packet × Nat)
  | 0, packets, pos => some (packets, pos)
  | count + 1, packets, pos =>
    let packetSize := (rand pos).tmod 200 + 100
    match make_unique packetSize with
    | none => none
    | some buf =>
      match randomizeBuffer rand buf packetSize (pos + 1) with
      | none => none
      | some (buf1, pos1) =>
        randomizePackets_loop rand count (packets ++ [{ buf := buf1, size := packetSize }]) pos1

/-- `randomizePackets(packets)`: one million rounds of the loop. -/
def randomizePackets (rand : Nat → Int) (packets : List Packet) (pos : Nat) :
    Option (List Packet × Nat) :=
  randomizePackets_loop rand 1000000 packets pos

/-- `indices.resize(n)`: cut to `n` elements or fill up with zeros. -/
def resize (v : List Int) (n : Nat) : List Int :=
  v.take n ++ List.replicate (n - v.length) 0

/-- `std::iota(first, last, value)`: assign `value`, `value + 1`, ... in order. -/
def iota : List Int → Int → List Int
  | [], _ => []
  | _ :: t, value => value :: iota t (value + 1)

/-- `randomizeIndices(indices, count)`.  The shuffle is the library's
`std::shuffle`, taken as a parameter, and `g` is the outcome of the generator
it draws from (`std::mt19937` seeded from `std::random_device`); a negative
`count` converts to a size over `max_size()` and `resize` throws. -/
def randomizeIndices (shuffle : List Int → (Nat → Nat) → List Int) (g : Nat → Nat)
    (indices : List Int) (count : Int) : Option (List Int) :=
  if 0 ≤ count then some (shuffle (iota (resize indices count.toNat) 0) g) else none

/-- `std::iter_swap` on the positions `i` and `j` of a range. -/
def iter_swap (l : List Int) (i j : Nat) : List Int :=
  match l[i]?, l[j]? with
  | some a, some b => (l.set i b).set j a
  | _, _ => l

/-- A `std::shuffle` as the library implements it (Fisher-Yates): for
`i = 1 .. n-1`, swap position `i` with a position drawn from `0 .. i`; the
draw at step `i` is `g i` reduced into that range. -/
def fisher_yates (l : List Int) (g : Nat → Nat) : List Int :=
  (List.range' 1 (l.length - 1)).foldl (fun acc i => iter_swap acc i (g i % (i + 1))) l

/-- The set-up of `main`: `std::srand(seed)`, then `randomizePackets` on an
empty vector, then `randomizeIndices` on an empty vector with the packet count.
`crand seed` is the sequence `std::rand()` returns after `std::srand(seed)`. -/
def main_setup (crand : Nat → Nat → Int) (shuffle : List Int → (Nat → Nat) → List Int)
    (seed : Nat) (g : Nat → Nat) : Option (List Packet × List Int) :=
  match randomizePackets (crand seed) [] 0 with
  | none => none
  | some (packets, _) =>
    match randomizeIndices shuffle g [] (packets.length : Int) with
    | none => none
    | some indices => some (packets, indices)

/-! ## Benchmark drivers -/

/-- The record of one digest computation: the bytes of the buffer and the
`size_t` length that were passed to it, and the 16 bytes it left (for the
engine the four words of the hash state, each least significant byte first;
for the library the bytes written to `res`). -/
structure Run where
  buf : List Nat
  len : Nat
  result : List Nat
deriving DecidableEq, Repr

/-- The memory shared by the benchmark drivers: the packet collection and the
index permutation, and the records of the digest computations so far, in the
order in which they were made. -/
structure Workload where
  packets : List Packet
  indices : List Int
  runs : List Run
deriving DecidableEq, Repr

/-- `packets[index]`: an index outside the collection is a fault. -/
def packet_at (packets : List Packet) (index : Int) : Option Packet :=
  if 0 ≤ index then packets[index.toNat]? else none

/-- The call `md5<uint32_t, fn>(&hash, buf, len)` together with its record:
the engine is applied to `hash`, `buf` and `len`, and the record is made of the
buffer as the engine returns it, the length the engine was given and the hash
state the engine leaves.  A fault of the engine is a fault of the call, and
then nothing is recorded. -/
def call_md5 (fn : Step) (hash : MD5_STATE) (buf : List Nat) (junk : Scratch) (len : Nat) :
    Option (Mem × Run) :=
  match md5 fn hash buf junk len with
  | none => none
  | some m => some (m, { buf := m.src, len := len, result := digest_bytes m.state })

/-- The timed loop of `externalMD5<fn>`:
`for (const int index : indices) md5<uint32_t, fn>(&hash, packets[index].buf.get(), packets[index].size);`.
The engine is called on the packet's buffer, which is stored back as the
engine leaves it, and on the packet's `int` size converted to `size_t`;
`junk k` is the content of the engine's scratch array at its `k`-th run.
Returns the shared memory and the local `hash`. -/
def externalMD5_loop (fn : Step) (junk : Nat → Scratch) :
    List Int → Workload → MD5_STATE → Option (Workload × MD5_STATE)
  | [], w, hash => some (w, hash)
  | index :: rest, w, hash =>
    match packet_at w.packets index with
    | none => none
    | some p =>
      match call_md5 fn hash p.buf (junk w.runs.length) (to_size_t p.size) with
      | none => none
      | some r =>
        externalMD5_loop fn junk rest
          { w with
            packets := w.packets.set index.toNat { p with buf := r.1.src },
            runs := w.runs ++ [r.2] }
          r.1.state

/-- `externalMD5<fn>(name, packets, indices)` up to the end of its timed loop;
`hash0` is the content of the uninitialised `hash`. -/
def externalMD5 (fn : Step) (junk : Nat → Scratch) (hash0 : MD5_STATE) (packets : List Packet)
    (indices : List Int) : Option (Workload × MD5_STATE) :=
  externalMD5_loop fn junk indices { packets := packets, indices := indices, runs := [] } hash0

/-- `calculate_md5(buf, buf_size, res)`: the library's `MD5`, taken as the
parameter `oracle`, computes the 16 bytes written to `res`. -/
def calculate_md5 (oracle : List Nat → Nat → List Nat) (buf : List Nat) (buf_size : Nat) :
    List Nat :=
  oracle buf buf_size

/-- The call `calculate_md5(buf, buf_size, out)` together with its record:
the bytes written to `out`, and the record made of the buffer and length that
were passed and of those bytes. -/
def call_calculate_md5 (oracle : List Nat → Nat → List Nat) (buf : List Nat) (buf_size : Nat) :
    List Nat × Run :=
  (calculate_md5 oracle buf buf_size,
   { buf := buf, len := buf_size, result := calculate_md5 oracle buf buf_size })

/-- The timed loop of `deprecatedMD5`:
`for (const int index : indices) calculate_md5(packets[index].buf.get(), packets[index].size, out.get());`.
Returns the shared memory and the local `out` buffer. -/
def deprecatedMD5_loop (oracle : List Nat → Nat → List Nat) :
    List Int → Workload → List Nat → Option (Workload × List Nat)
  | [], w, out => some (w, out)
  | index :: rest, w, _ =>
    match packet_at w.packets index with
    | none => none
    | some p =>
      deprecatedMD5_loop oracle rest
        { w with runs := w.runs ++ [(call_calculate_md5 oracle p.buf (to_size_t p.size)).2] }
        (call_calculate_md5 oracle p.buf (to_size_t p.size)).1

/-- `deprecatedMD5(packets, indices)` up to the end of its timed loop; `out`
starts as the zero-filled 16-byte array from `make_unique`. -/
def deprecatedMD5 (oracle : List Nat → Nat → List Nat) (packets : List Packet)
    (indices : List Int) : Option (Workload × List Nat) :=
  deprecatedMD5_loop oracle indices { packets := packets, indices := indices, runs := [] }
    (List.replicate 16 0)

/-- The hash state of the engine after the first `len` bytes of `buf`, as a
fold of the compression step over the full blocks and the final blocks; the
lemma `md5_run` shows that `md5` leaves this state. -/
def md5_fold (fn : Step) (buf : List Nat) (len : Nat) : MD5_STATE :=
  (blocks (len / 64) buf
    ++ final_blocks (leftover buf len) ((len <<< 3) % 2 ^ 64)).foldl fn rfc_init


/-! ## Distribution of the packet lengths -/

/-- `RAND_MAX`, the largest value `std::rand()` returns: `2^31 - 1`. -/
def RAND_MAX : Nat := 2147483647

/-- The packet length computed from one value `r` of the random source:
`std::rand() % 200 + 100`. -/
def packet_length (r : Int) : Int := r.tmod 200 + 100

/-- The number of values `0 .. RAND_MAX` of the random source from which
`packet_length` computes the length `L`. -/
def length_weight (L : Int) : Nat :=
  Nat.count (fun v => packet_length (v : Int) = L) (RAND_MAX + 1)

/-! ## Console output -/

/-- `std::cout << std::hex << static_cast<int>(b)`: the hexadecimal digits of
the value in lowercase, as many as the value needs (the source sets neither a
field width nor a fill character). -/
def hex_int (b : Nat) : List Char := Nat.toDigits 16 b

/-- `printMD5(out)`: `out[0] .. out[15]` written in turn by
`for (int i = 0; i < 16; ++i)`, then a newline; the result is the text
written, and a read outside `out` is a fault. -/
def printMD5 (out : List Nat) : Option String :=
  ((List.range 16).foldlM
      (fun (text : List Char) (i : Nat) => (out[i]?).map (fun b => text ++ hex_int b)) []).map
    (fun text => String.mk (text ++ [Char.ofNat 10]))

/-! ## Reported percentages -/

/-- Rounding a rational to the nearest integer, a tie going to the even one. -/
def round_half_even (q : ℚ) : ℤ :=
  if q - ⌊q⌋ < 1 / 2 then ⌊q⌋
  else if 1 / 2 < q - ⌊q⌋ then ⌊q⌋ + 1
  else if ⌊q⌋ % 2 = 0 then ⌊q⌋ else ⌊q⌋ + 1

/-- The binade of a non-zero rational `q`: the `e` with `2^e ≤ |q| < 2^(e+1)`. -/
def binade (q : ℚ) : ℤ := Int.log 2 |q|

/-- The `double` nearest to a rational (IEEE 754 binary64, round to nearest,
ties to even): the nearest multiple of `2^(e-52)` for the binade `e` of the
value, so that the significand has 53 bits.  The exponent range of the format
is not represented; the values met in `main` (64-bit counts, their quotients,
a product with 100) lie within it. -/
def to_double (q : ℚ) : ℚ :=
  if q = 0 then 0
  else (round_half_even (q / 2 ^ (binade q - 52)) : ℚ) * 2 ^ (binade q - 52)

/-- Subtraction of two 64-bit signed counts (`elapsed.count()` values), with
the wrap-around of the machine. -/
def sub_int64 (a b : Int) : Int := (a - b + 2 ^ 63) % 2 ^ 64 - 2 ^ 63

/-- The percentage `main` computes for a candidate and streams to `std::cout`:
`(static_cast<double>(baseline - candidate) / baseline) * 100`, the difference
taken on the 64-bit counts, the division and the multiplication in `double`. -/
def percentage_delta (baseline candidate : Int) : ℚ :=
  to_double (to_double (to_double (sub_int64 baseline candidate) / to_double baseline) * 100)

/-! ## Lemmas on the engine -/

theorem and_63 (n : Nat) : n &&& 63 = n % 64 :=
  Nat.and_pow_two_sub_one_eq_mod n 6

theorem le_bytes_length : ∀ (w v : Nat), (le_bytes w v).length = w
  | 0, _ => rfl
  | w + 1, v => by simp [le_bytes, le_bytes_length w]

theorem trace_of_length (fn : Step) (site : CallSite) :
    ∀ (bs : List (List Nat)) (st : MD5_STATE), (trace_of fn site st bs).length = bs.length
  | [], _ => rfl
  | b :: bs, st => by simp [trace_of, trace_of_length fn site bs]

theorem trace_of_append (fn : Step) (site : CallSite) :
    ∀ (bs cs : List (List Nat)) (st : MD5_STATE),
      trace_of fn site st (bs ++ cs)
        = trace_of fn site st bs ++ trace_of fn site (bs.foldl fn st) cs
  | [], _, _ => rfl
  | b :: bs, cs, st => by simp [trace_of, trace_of_append fn site bs]

theorem blocks_length : ∀ (n : Nat) (l : List Nat), (blocks n l).length = n
  | 0, _ => rfl
  | n + 1, l => by simp [blocks, blocks_length n]

/-- The main loop on a buffer that holds `len` bytes from the cursor on: it
invokes the step on the `len / 64` consecutive blocks, moves the cursor past
them and leaves `len % 64`. -/
theorem main_loop_spec (fn : Step) :
    ∀ (len : Nat) (m : Mem) (off : Nat), off + len ≤ m.src.length →
      main_loop fn m off len
        = some ({ m with
                  state := (blocks (len / 64) (m.src.drop off)).foldl fn m.state,
                  calls := m.calls
                    ++ trace_of fn .full_block m.state (blocks (len / 64) (m.src.drop off)) },
                off + 64 * (len / 64), len % 64) := by
  intro len
  induction len using Nat.strong_induction_on with
  | _ len ih =>
    intro m off hle
    rw [main_loop]
    by_cases h : len ≥ 64
    · have hread : read_src m.src off 64 = some ((m.src.drop off).take 64) := by
        simp only [read_src]
        rw [if_pos (by omega)]
      have hq : len / 64 = (len - 64) / 64 + 1 := by omega
      have hr : (len - 64) % 64 = len % 64 := by omega
      simp only [h, if_true, hread]
      rw [ih (len - 64) (by omega) (call_fn fn .full_block m _) (off + 64)
        (by simp only [call_fn]; omega)]
      rw [hq, hr]
      simp only [blocks, call_fn, List.foldl_cons, trace_of, List.drop_drop,
        List.append_assoc, List.singleton_append]
      have e1 : off + 64 + 64 * ((len - 64) / 64) = off + 64 * ((len - 64) / 64 + 1) := by ring
      rw [e1]
    · have hq : len / 64 = 0 := by omega
      have hr : len % 64 = len := by omega
      simp only [h, if_false, hq, hr, blocks, List.foldl_nil, trace_of, List.append_nil,
        Nat.mul_zero, Nat.add_zero]

theorem sub_size_t_of_le (a b : Nat) (hb : b ≤ a) (ha : a < 2 ^ 64) :
    sub_size_t a b = a - b := by
  unfold sub_size_t
  have h1 : b % 2 ^ 64 = b := Nat.mod_eq_of_lt (by omega)
  rw [h1]
  have h2 : a + 2 ^ 64 - b = (a - b) + 2 ^ 64 := by omega
  rw [h2, Nat.add_mod_right]
  exact Nat.mod_eq_of_lt (by omega)

/-- Writing into the scratch block right after a known prefix. -/
theorem write_block_at (m : Mem) (pre rest data : List Nat) (off : Nat)
    (hb : m.block = pre ++ rest) (hoff : pre.length = off)
    (hfit : off + data.length ≤ 64) :
    write_block m off data
      = some { m with block := pre ++ data ++ rest.drop data.length } := by
  subst hoff
  unfold write_block
  rw [if_pos hfit, hb]
  simp [List.take_append_of_le_length, List.drop_append_eq_append_drop,
    List.drop_eq_nil_of_le]

theorem final_loop_done (fn : Step) (totalLen : Nat) (m : Mem) (len : Nat) :
    final_loop fn totalLen m len 2 = some m := by
  rw [final_loop]
  simp

/-- The pass of the finalization loop that writes the length field
(`iter == 1`), on a block whose first `len <= 56` bytes are `pre`. -/
theorem final_loop_one (fn : Step) (totalLen : Nat) (m : Mem) (pre rest : List Nat) (len : Nat)
    (hb : m.block = pre ++ rest) (hpre : pre.length = len) (hlen : len ≤ 56)
    (hrest : rest.length = 64 - len) :
    final_loop fn totalLen m len 1
      = some
          { state := fn m.state (pre ++ List.replicate (56 - len) 0 ++ le_bytes 8 totalLen),
            src := m.src,
            block := pre ++ List.replicate (56 - len) 0 ++ le_bytes 8 totalLen,
            calls := m.calls ++
              [⟨.finalization, m.state,
                pre ++ List.replicate (56 - len) 0 ++ le_bytes 8 totalLen⟩] } := by
  rw [final_loop]
  have hs : sub_size_t (64 - 8) len = 56 - len :=
    sub_size_t_of_le 56 len hlen (by norm_num)
  have h1 : memset_block m len (sub_size_t (64 - 8) len)
      = some { m with block := (pre ++ List.replicate (56 - len) 0
                ++ List.drop (56 - len) rest) } := by
    rw [hs]
    unfold memset_block
    have := write_block_at m pre rest (List.replicate (56 - len) 0) len hb hpre
      (by simp; omega)
    simpa using this
  have h2 : write_block { m with block := (pre ++ List.replicate (56 - len) 0
                ++ List.drop (56 - len) rest) } (64 - 8) (le_bytes 8 totalLen)
      = some { m with block := pre ++ List.replicate (56 - len) 0 ++ le_bytes 8 totalLen } := by
    have := write_block_at { m with block := (pre ++ List.replicate (56 - len) 0
                ++ List.drop (56 - len) rest) } (pre ++ List.replicate (56 - len) 0)
      (rest.drop (56 - len)) (le_bytes 8 totalLen) (64 - 8) rfl
      (by simp; omega) (by simp [le_bytes_length])
    rw [this]
    have hd : List.drop (le_bytes 8 totalLen).length (List.drop (56 - len) rest) = [] := by
      apply List.drop_eq_nil_of_le
      simp [le_bytes_length]; omega
    rw [hd, List.append_nil]
  simp only [h1, h2]
  simp [final_loop_done, call_fn, -List.reduceReplicate]

/-- The pass of the finalization loop that only zero-fills (`iter == 0`),
followed by the pass that writes the length field into the second block. -/
theorem final_loop_zero (fn : Step) (totalLen : Nat) (m : Mem) (pre rest : List Nat) (len : Nat)
    (hb : m.block = pre ++ rest) (hpre : pre.length = len) (hlen : len ≤ 64)
    (hrest : rest.length = 64 - len) :
    final_loop fn totalLen m len 0
      = some
          { state := fn (fn m.state (pre ++ List.replicate (64 - len) 0))
              (List.replicate 56 0 ++ le_bytes 8 totalLen),
            src := m.src,
            block := List.replicate 56 0 ++ le_bytes 8 totalLen,
            calls := m.calls ++
              [⟨.finalization, m.state, pre ++ List.replicate (64 - len) 0⟩,
               ⟨.finalization, fn m.state (pre ++ List.replicate (64 - len) 0),
                List.replicate 56 0 ++ le_bytes 8 totalLen⟩] } := by
  rw [final_loop]
  have hs : sub_size_t 64 len = 64 - len := sub_size_t_of_le 64 len hlen (by norm_num)
  have h1 : memset_block m len (sub_size_t 64 len)
      = some { m with block := pre ++ List.replicate (64 - len) 0 } := by
    rw [hs]
    unfold memset_block
    have := write_block_at m pre rest (List.replicate (64 - len) 0) len hb hpre
      (by simp; omega)
    rw [this]
    have hd : List.drop (List.replicate (64 - len) 0).length rest = [] := by
      apply List.drop_eq_nil_of_le
      rw [List.length_replicate]; omega
    rw [hd, List.append_nil]
  simp only [h1]
  have h2 := final_loop_one fn totalLen
    (call_fn fn .finalization { m with block := pre ++ List.replicate (64 - len) 0 }
      (pre ++ List.replicate (64 - len) 0)) [] (pre ++ List.replicate (64 - len) 0) 0
    (by simp [call_fn]) rfl (by omega) (by simp; omega)
  simp only [Nat.lt_irrefl, if_true, Nat.zero_add, List.nil_append, Nat.sub_zero] at h2 ⊢
  rw [if_pos (by norm_num), h2]
  simp [call_fn, -List.reduceReplicate]

theorem leftover_length (src : List Nat) (len : Nat) (hlen : len ≤ src.length) :
    (leftover src len).length = len % 64 := by
  unfold leftover
  rw [List.length_take, List.length_drop]
  have := Nat.div_add_mod len 64
  omega

/-- A run of the engine on a buffer holding at least `len` bytes: it does not
fault, it invokes the step on the full blocks and then on the finalization
blocks, and it leaves the buffer as it was. -/
theorem md5_run (fn : Step) (st : MD5_STATE) (src : List Nat) (junk : Scratch) (len : Nat)
    (hlen : len ≤ src.length) :
    md5 fn st src junk len
      = some
          { state := (blocks (len / 64) src
                ++ final_blocks (leftover src len) ((len <<< 3) % 2 ^ 64)).foldl fn rfc_init,
            src := src,
            block := (final_blocks (leftover src len) ((len <<< 3) % 2 ^ 64)).getLastD [],
            calls := trace_of fn .full_block rfc_init (blocks (len / 64) src)
              ++ trace_of fn .finalization ((blocks (len / 64) src).foldl fn rfc_init)
                  (final_blocks (leftover src len) ((len <<< 3) % 2 ^ 64)) } := by
  have hR := leftover_length src len hlen
  have hdm := Nat.div_add_mod len 64
  have hlt : len % 64 < 64 := Nat.mod_lt _ (by norm_num)
  unfold md5
  simp only []
  rw [main_loop_spec fn len _ 0 (by simpa using hlen)]
  simp only [List.drop_zero, Nat.zero_add, and_63, Nat.mod_mod, List.nil_append]
  have hread : read_src src (64 * (len / 64)) (len % 64) = some (leftover src len) := by
    unfold read_src leftover
    rw [if_pos (by omega)]
  simp only [hread]
  rw [write_block_at _ [] junk.val (leftover src len) 0 rfl rfl (by simp [hR]; omega)]
  simp only [List.nil_append, hR]
  rw [write_block_at _ (leftover src len) (List.drop (len % 64) junk.val) [0x80] (len % 64) rfl hR
    (by simp; omega)]
  simp only [List.length_singleton, List.drop_drop]
  by_cases h55 : len % 64 ≤ 55
  · rw [if_pos (by omega)]
    rw [final_loop_one fn _ _ (leftover src len ++ [0x80]) (List.drop (len % 64 + 1) junk.val)
      (len % 64 + 1) rfl (by simp [hR]) (by omega)
      (by rw [List.length_drop, junk.property])]
    have e : 56 - (len % 64 + 1) = 55 - len % 64 := by omega
    simp [final_blocks, hR, h55, md5_init, rfc_init, List.foldl_append, trace_of, e,
      -List.reduceReplicate]
  · rw [if_neg (by omega)]
    rw [final_loop_zero fn _ _ (leftover src len ++ [0x80]) (List.drop (len % 64 + 1) junk.val)
      (len % 64 + 1) rfl (by simp [hR]) (by omega)
      (by rw [List.length_drop, junk.property])]
    have e : 64 - (len % 64 + 1) = 63 - len % 64 := by omega
    simp [final_blocks, hR, h55, md5_init, rfc_init, List.foldl_append, trace_of, e,
      -List.reduceReplicate]

/-! ## Blocks of the padded message -/

theorem blocks_append_left : ∀ (n : Nat) (l1 l2 : List Nat), 64 * n ≤ l1.length →
    blocks n (l1 ++ l2) = blocks n l1
  | 0, _, _, _ => rfl
  | n + 1, l1, l2, h => by
    have h64 : 64 ≤ l1.length := by omega
    simp only [blocks]
    rw [List.take_append_of_le_length h64, List.drop_append_of_le_length h64,
      blocks_append_left n _ _ (by rw [List.length_drop]; omega)]

theorem blocks_append : ∀ (n k : Nat) (l1 l2 : List Nat), l1.length = 64 * n →
    blocks (n + k) (l1 ++ l2) = blocks n l1 ++ blocks k l2
  | 0, k, l1, l2, h => by
    have : l1 = [] := List.length_eq_zero.mp (by omega)
    subst this
    simp [blocks]
  | n + 1, k, l1, l2, h => by
    have h64 : 64 ≤ l1.length := by omega
    have e : n + 1 + k = (n + k) + 1 := by omega
    rw [e]
    simp only [blocks]
    rw [List.take_append_of_le_length h64, List.drop_append_of_le_length h64,
      blocks_append n k _ _ (by rw [List.length_drop]; omega)]
    rfl

theorem rfc_pad_zeros_low (len : Nat) (h : len % 64 ≤ 55) :
    rfc_pad_zeros len = 55 - len % 64 := by
  unfold rfc_pad_zeros
  omega

theorem rfc_pad_zeros_high (len : Nat) (h : ¬ len % 64 ≤ 55) :
    rfc_pad_zeros len = (63 - len % 64) + 56 := by
  unfold rfc_pad_zeros
  omega

/-- The blocks of the finalization: what follows the full blocks in the padded
message, cut into 64-byte blocks. -/
theorem blocks_final (tail : List Nat) (len T : Nat) (ht : tail.length = len % 64) :
    blocks (if len % 64 ≤ 55 then 1 else 2)
        (tail ++ ([0x80] ++ List.replicate (rfc_pad_zeros len) 0 ++ le_bytes 8 T))
      = final_blocks tail T := by
  have hlt : len % 64 < 64 := Nat.mod_lt _ (by norm_num)
  by_cases h : len % 64 ≤ 55
  · rw [if_pos h, rfc_pad_zeros_low len h]
    unfold final_blocks
    rw [if_pos (by omega), ht]
    simp only [blocks]
    rw [List.take_of_length_le (by simp [le_bytes_length, ht]; omega)]
    simp [-List.reduceReplicate]
  · rw [if_neg h, rfc_pad_zeros_high len h]
    unfold final_blocks
    rw [if_neg (by omega), ht]
    simp only [blocks]
    have e1 : tail ++ ([0x80] ++ List.replicate (63 - len % 64 + 56) 0 ++ le_bytes 8 T)
        = (tail ++ [0x80] ++ List.replicate (63 - len % 64) 0)
          ++ (List.replicate 56 0 ++ le_bytes 8 T) := by
      rw [List.replicate_add]
      simp only [List.append_assoc]
    have hl : (tail ++ [0x80] ++ List.replicate (63 - len % 64) 0).length = 64 := by
      simp [ht]; omega
    rw [e1, List.take_append_of_le_length (by omega), List.take_of_length_le (by omega),
      List.drop_append_of_le_length (by omega), List.drop_of_length_le (by omega),
      List.nil_append, List.take_of_length_le (by simp [le_bytes_length])]

theorem take_append_leftover (msg : List Nat) :
    msg.take (64 * (msg.length / 64)) ++ leftover msg msg.length = msg := by
  have hdm := Nat.div_add_mod msg.length 64
  have h : (msg.drop (64 * (msg.length / 64))).take (msg.length % 64)
      = msg.drop (64 * (msg.length / 64)) :=
    List.take_of_length_le (by rw [List.length_drop]; omega)
  unfold leftover
  rw [h, List.take_append_drop]

theorem blocks_of_padded_aux (pre tail : List Nat) (len q T : Nat)
    (hpre : pre.length = 64 * q) (ht : tail.length = len % 64) (hq : q = len / 64) :
    blocks_of (pre ++ tail ++ [0x80] ++ List.replicate (rfc_pad_zeros len) 0 ++ le_bytes 8 T)
      = blocks q pre ++ final_blocks tail T := by
  have hdm := Nat.div_add_mod len 64
  have hlt : len % 64 < 64 := Nat.mod_lt _ (by norm_num)
  have hcount : (pre ++ tail ++ [0x80] ++ List.replicate (rfc_pad_zeros len) 0
      ++ le_bytes 8 T).length / 64
      = q + (if len % 64 ≤ 55 then 1 else 2) := by
    simp only [List.length_append, List.length_singleton, List.length_replicate,
      le_bytes_length, hpre, ht]
    by_cases h : len % 64 ≤ 55
    · rw [if_pos h, rfc_pad_zeros_low _ h]; omega
    · rw [if_neg h, rfc_pad_zeros_high _ h]; omega
  unfold blocks_of
  rw [hcount]
  have hassoc : pre ++ tail ++ [0x80] ++ List.replicate (rfc_pad_zeros len) 0 ++ le_bytes 8 T
      = pre ++ (tail ++ ([0x80] ++ List.replicate (rfc_pad_zeros len) 0 ++ le_bytes 8 T)) := by
    simp only [List.append_assoc]
  rw [hassoc, blocks_append _ _ _ _ hpre, blocks_final _ _ T ht]

/-- The blocks of the padded message are the full blocks of the message
followed by the finalization blocks. -/
theorem blocks_of_padded (msg : List Nat) (T : Nat) :
    blocks_of (msg ++ [0x80] ++ List.replicate (rfc_pad_zeros msg.length) 0 ++ le_bytes 8 T)
      = blocks (msg.length / 64) msg ++ final_blocks (leftover msg msg.length) T := by
  have hdm := Nat.div_add_mod msg.length 64
  have hR := leftover_length msg msg.length (Nat.le_refl _)
  have key := blocks_of_padded_aux (msg.take (64 * (msg.length / 64)))
    (leftover msg msg.length) msg.length (msg.length / 64) T
    (by rw [List.length_take]; omega) hR rfl
  have hpre := blocks_append_left (msg.length / 64) (msg.take (64 * (msg.length / 64)))
    (leftover msg msg.length) (by rw [List.length_take]; omega)
  rw [take_append_leftover] at key hpre
  rw [key, hpre]

/-! ## The engine against RFC1321 -/

theorem shl3_mod (len : Nat) : (len <<< 3) % 2 ^ 64 = (8 * len) % 2 ^ 64 := by
  rw [Nat.shiftLeft_eq, Nat.mul_comm]

theorem blocks_mem_length : ∀ (n : Nat) (l : List Nat), 64 * n ≤ l.length →
    ∀ b ∈ blocks n l, b.length = 64
  | 0, _, _, b, hb => by simp [blocks] at hb
  | n + 1, l, h, b, hb => by
    simp only [blocks, List.mem_cons] at hb
    rcases hb with rfl | hb
    · rw [List.length_take]; omega
    · exact blocks_mem_length n _ (by rw [List.length_drop]; omega) b hb

theorem final_blocks_mem_length (tail : List Nat) (T : Nat) (ht : tail.length < 64) :
    ∀ b ∈ final_blocks tail T, b.length = 64 := by
  intro b hb
  unfold final_blocks at hb
  by_cases h : tail.length ≤ 55
  · rw [if_pos h] at hb
    simp only [List.mem_singleton] at hb
    subst hb
    simp [le_bytes_length]; omega
  · rw [if_neg h] at hb
    simp only [List.mem_cons, List.mem_singleton, List.not_mem_nil, or_false] at hb
    rcases hb with rfl | rfl
    · simp; omega
    · simp [le_bytes_length]

theorem foldl_step_congr (f g : Step) :
    ∀ (bs : List (List Nat)) (s : MD5_STATE),
      (∀ b ∈ bs, ∀ t, f t b = g t b) → bs.foldl f s = bs.foldl g s
  | [], _, _ => rfl
  | b :: bs, s, h => by
    simp only [List.foldl_cons]
    rw [h b (List.mem_cons_self _ _) s]
    exact foldl_step_congr f g bs _ (fun c hc t => h c (List.mem_cons_of_mem _ hc) t)

/-- The state the engine leaves is the fold of the step over the blocks of the
RFC1321-padded message. -/
theorem md5_state_rfc_pad (fn : Step) (st : MD5_STATE) (msg : List Nat) (junk : Scratch) :
    ∃ m, md5 fn st msg junk msg.length = some m
      ∧ m.state = (blocks_of (rfc_pad msg)).foldl fn rfc_init := by
  refine ⟨_, md5_run fn st msg junk msg.length (Nat.le_refl _), ?_⟩
  simp only [rfc_pad]
  rw [blocks_of_padded, shl3_mod]

/-- C1: for every compression step, every prior hash state, every prior content
of the scratch block and every buffer of fewer than 2^61 bytes, `md5` returns
and leaves the left fold of the step, from the RFC1321 initial state, over the
consecutive 64-byte blocks of `msg ++ [0x80] ++ k zero bytes ++ (8 * len as 8
little-endian bytes)`, with `k` the least number that makes the padded length
a multiple of 64. -/
theorem md5_state_is_fold_over_padded_blocks (fn : Step) (st : MD5_STATE) (msg : List Nat)
    (junk : Scratch) (hlen : msg.length < 2 ^ 61) :
    ∃ (k : Nat) (m : Mem),
      (msg.length + 1 + k + 8) % 64 = 0
      ∧ (∀ j < k, (msg.length + 1 + j + 8) % 64 ≠ 0)
      ∧ md5 fn st msg junk msg.length = some m
      ∧ m.state
          = (blocks_of (msg ++ [0x80] ++ List.replicate k 0 ++ le_bytes 8 (8 * msg.length))).foldl
              fn { A := 0x67452301, B := 0xefcdab89, C := 0x98badcfe, D := 0x10325476 } := by
  obtain ⟨m, hm, hs⟩ := md5_state_rfc_pad fn st msg junk
  refine ⟨rfc_pad_zeros msg.length, m, ?_, ?_, hm, ?_⟩
  · unfold rfc_pad_zeros; omega
  · intro j hj; unfold rfc_pad_zeros at hj; omega
  · have h8 : (8 * msg.length) % 2 ^ 64 = 8 * msg.length :=
      Nat.mod_eq_of_lt (by omega)
    rw [hs, rfc_pad, h8]
    rfl

/-- Witness for C1: a three-byte buffer, the RFC1321 compression function as
the step, a used hash state and a used scratch block. -/
theorem md5_state_is_fold_over_padded_blocks_witness :
    ([1, 2, 3] : List Nat).length < 2 ^ 61
    ∧ ∃ (k : Nat) (m : Mem),
      (([1, 2, 3] : List Nat).length + 1 + k + 8) % 64 = 0
      ∧ (∀ j < k, (([1, 2, 3] : List Nat).length + 1 + j + 8) % 64 ≠ 0)
      ∧ md5 rfc_compress ⟨1, 2, 3, 4⟩ [1, 2, 3] ⟨List.replicate 64 7, by decide⟩
          ([1, 2, 3] : List Nat).length = some m
      ∧ m.state
          = (blocks_of (([1, 2, 3] : List Nat) ++ [0x80] ++ List.replicate k 0
              ++ le_bytes 8 (8 * ([1, 2, 3] : List Nat).length))).foldl
              rfc_compress
              { A := 0x67452301, B := 0xefcdab89, C := 0x98badcfe, D := 0x10325476 } :=
  ⟨by decide,
   md5_state_is_fold_over_padded_blocks rfc_compress ⟨1, 2, 3, 4⟩ [1, 2, 3]
     ⟨List.replicate 64 7, by decide⟩ (by decide)⟩

theorem rfc_pad_blocks_length (msg : List Nat) :
    ∀ b ∈ blocks_of (rfc_pad msg), b.length = 64 := by
  have hlt : msg.length % 64 < 64 := Nat.mod_lt _ (by norm_num)
  intro b hb
  simp only [rfc_pad] at hb
  rw [blocks_of_padded, List.mem_append] at hb
  rcases hb with hb | hb
  · exact blocks_mem_length _ _ (by have := Nat.div_add_mod msg.length 64; omega) b hb
  · exact final_blocks_mem_length _ _
      (by rw [leftover_length msg msg.length (Nat.le_refl _)]; exact hlt) b hb

/-- C2: two compression steps that both compute the RFC1321 block compression
on every state and every 64-byte block leave the identical final state on every
buffer (whatever the prior hash states and scratch contents), and that state,
as the little-endian bytes of A, B, C, D, is the reference MD5 digest of the
buffer. -/
theorem md5_conforming_steps_agree (fn1 fn2 : Step) (st1 st2 : MD5_STATE) (msg : List Nat)
    (junk1 junk2 : Scratch)
    (h1 : ∀ (s : MD5_STATE) (b : List Nat), b.length = 64 → fn1 s b = rfc_compress s b)
    (h2 : ∀ (s : MD5_STATE) (b : List Nat), b.length = 64 → fn2 s b = rfc_compress s b) :
    ∃ (m1 m2 : Mem),
      md5 fn1 st1 msg junk1 msg.length = some m1
      ∧ md5 fn2 st2 msg junk2 msg.length = some m2
      ∧ m1.state = m2.state
      ∧ digest_bytes m1.state = rfc_md5 msg
      ∧ digest_bytes m2.state = rfc_md5 msg := by
  obtain ⟨m1, hm1, hs1⟩ := md5_state_rfc_pad fn1 st1 msg junk1
  obtain ⟨m2, hm2, hs2⟩ := md5_state_rfc_pad fn2 st2 msg junk2
  have e1 : m1.state = (blocks_of (rfc_pad msg)).foldl rfc_compress rfc_init := by
    rw [hs1]
    exact foldl_step_congr fn1 rfc_compress _ _
      (fun b hb t => h1 t b (rfc_pad_blocks_length msg b hb))
  have e2 : m2.state = (blocks_of (rfc_pad msg)).foldl rfc_compress rfc_init := by
    rw [hs2]
    exact foldl_step_congr fn2 rfc_compress _ _
      (fun b hb t => h2 t b (rfc_pad_blocks_length msg b hb))
  refine ⟨m1, m2, hm1, hm2, by rw [e1, e2], ?_, ?_⟩
  · rw [e1]; rfl
  · rw [e2]; rfl

/-- Witness for C2: the RFC1321 compression function itself and a step that
first cuts its block argument to 64 bytes, on a three-byte buffer. -/
theorem md5_conforming_steps_agree_witness :
    (∀ (s : MD5_STATE) (b : List Nat), b.length = 64 → rfc_compress s b = rfc_compress s b)
    ∧ (∀ (s : MD5_STATE) (b : List Nat), b.length = 64 →
        (fun t c => rfc_compress t (c.take 64)) s b = rfc_compress s b)
    ∧ ∃ (m1 m2 : Mem),
      md5 rfc_compress ⟨1, 2, 3, 4⟩ [97, 98, 99] ⟨List.replicate 64 7, by decide⟩
          ([97, 98, 99] : List Nat).length = some m1
      ∧ md5 (fun t c => rfc_compress t (c.take 64)) ⟨5, 6, 7, 8⟩ [97, 98, 99]
          ⟨List.replicate 64 9, by decide⟩ ([97, 98, 99] : List Nat).length = some m2
      ∧ m1.state = m2.state
      ∧ digest_bytes m1.state = rfc_md5 [97, 98, 99]
      ∧ digest_bytes m2.state = rfc_md5 [97, 98, 99] :=
  ⟨fun _ _ _ => rfl,
   fun s b hb => by simp only [List.take_of_length_le (Nat.le_of_eq hb)],
   md5_conforming_steps_agree rfc_compress (fun t c => rfc_compress t (c.take 64))
     ⟨1, 2, 3, 4⟩ ⟨5, 6, 7, 8⟩ [97, 98, 99] ⟨List.replicate 64 7, by decide⟩
     ⟨List.replicate 64 9, by decide⟩ (fun _ _ _ => rfl)
     (fun s b hb => by simp only [List.take_of_length_le (Nat.le_of_eq hb)])⟩

/-- The reference digest of the three bytes `abc` is the RFC1321 test vector
`900150983cd24fb0d6963f7d28e17f72`. -/
theorem rfc_md5_abc :
    rfc_md5 [97, 98, 99]
      = [0x90, 0x01, 0x50, 0x98, 0x3c, 0xd2, 0x4f, 0xb0,
         0xd6, 0x96, 0x3f, 0x7d, 0x28, 0xe1, 0x7f, 0x72] := by
  decide

set_option maxRecDepth 100000 in
/-- The reference digest of the 80 digits `1234567890` x 8 (two blocks after
padding) is the RFC1321 test vector `57edf4a22be3c955ac49da2e2107b67a`. -/
theorem rfc_md5_digits :
    rfc_md5
      [49, 50, 51, 52, 53, 54, 55, 56, 57, 48, 49, 50, 51, 52, 53, 54, 55, 56, 57, 48,
      49, 50, 51, 52, 53, 54, 55, 56, 57, 48, 49, 50, 51, 52, 53, 54, 55, 56, 57, 48,
      49, 50, 51, 52, 53, 54, 55, 56, 57, 48, 49, 50, 51, 52, 53, 54, 55, 56, 57, 48,
      49, 50, 51, 52, 53, 54, 55, 56, 57, 48, 49, 50, 51, 52, 53, 54, 55, 56, 57, 48]
      = [0x57, 0xed, 0xf4, 0xa2, 0x2b, 0xe3, 0xc9, 0x55,
         0xac, 0x49, 0xda, 0x2e, 0x21, 0x07, 0xb6, 0x7a] := by
  decide

/-! ## Invocations of the compression step -/

theorem trace_of_sites (fn : Step) (site : CallSite) :
    ∀ (bs : List (List Nat)) (st : MD5_STATE),
      (trace_of fn site st bs).map (fun c => c.site) = List.replicate bs.length site
  | [], _ => rfl
  | b :: bs, st => by
    simp only [trace_of, List.map_cons, List.length_cons, List.replicate_succ,
      trace_of_sites fn site bs]

theorem final_blocks_length (tail : List Nat) (T : Nat) :
    (final_blocks tail T).length = if tail.length ≤ 55 then 1 else 2 := by
  unfold final_blocks
  by_cases h : tail.length ≤ 55
  · simp [h]
  · simp [h]

/-- C4: with length 0, whatever the buffer pointer addresses, `md5` invokes the
compression step exactly once, on the RFC1321 initial state and on the block
`0x80` followed by 63 zero bytes; with the RFC1321 compression function as the
step the state it leaves serialises to `d41d8cd98f00b204e9800998ecf8427e`. -/
theorem md5_empty_input (fn : Step) (st : MD5_STATE) (src : List Nat) (junk : Scratch) :
    (∃ m, md5 fn st src junk 0 = some m
      ∧ m.calls
          = [⟨CallSite.finalization,
              { A := 0x67452301, B := 0xefcdab89, C := 0x98badcfe, D := 0x10325476 },
              0x80 :: List.replicate 63 0⟩]
      ∧ m.state
          = fn { A := 0x67452301, B := 0xefcdab89, C := 0x98badcfe, D := 0x10325476 }
              (0x80 :: List.replicate 63 0))
    ∧ (∃ m, md5 rfc_compress st src junk 0 = some m
      ∧ digest_bytes m.state
          = [0xd4, 0x1d, 0x8c, 0xd9, 0x8f, 0x00, 0xb2, 0x04,
             0xe9, 0x80, 0x09, 0x98, 0xec, 0xf8, 0x42, 0x7e]) := by
  have key : ∀ g : Step, ∃ m, md5 g st src junk 0 = some m
      ∧ m.calls = [⟨CallSite.finalization, rfc_init, 0x80 :: List.replicate 63 0⟩]
      ∧ m.state = g rfc_init (0x80 :: List.replicate 63 0) := by
    intro g
    refine ⟨_, md5_run g st src junk 0 (Nat.zero_le _), ?_, ?_⟩
    · simp [leftover, final_blocks, blocks, trace_of, le_bytes]
    · simp [leftover, final_blocks, blocks, le_bytes]
  refine ⟨key fn, ?_⟩
  obtain ⟨m, hm, _, hs⟩ := key rfc_compress
  refine ⟨m, hm, ?_⟩
  rw [hs]
  decide

/-- C5: for every compression step, every buffer and every two prior contents
of the hash state (and of the scratch block), the two runs of `md5` end in the
same memory, with any `len`; on a buffer of `len` bytes the state handed to
the first invocation of the step is the RFC1321 initial state. -/
theorem md5_ignores_prior_state (fn : Step) (s1 s2 : MD5_STATE) (msg : List Nat)
    (junk1 junk2 : Scratch) :
    (∀ len : Nat, md5 fn s1 msg junk1 len = md5 fn s2 msg junk1 len)
    ∧ md5 fn s1 msg junk1 msg.length = md5 fn s2 msg junk2 msg.length
    ∧ ∃ (m : Mem) (c : Call), md5 fn s1 msg junk1 msg.length = some m
        ∧ m.calls.head? = some c
        ∧ c.state = { A := 0x67452301, B := 0xefcdab89, C := 0x98badcfe, D := 0x10325476 } := by
  refine ⟨fun len => rfl, ?_, ?_⟩
  · rw [md5_run fn s1 msg junk1 msg.length (Nat.le_refl _),
      md5_run fn s2 msg junk2 msg.length (Nat.le_refl _)]
  · have hrun := md5_run fn s1 msg junk1 msg.length (Nat.le_refl _)
    cases hb : blocks (msg.length / 64) msg with
    | nil =>
      rw [hb] at hrun
      obtain ⟨b, bs, hf⟩ : ∃ b bs,
          final_blocks (leftover msg msg.length) ((msg.length <<< 3) % 2 ^ 64) = b :: bs := by
        unfold final_blocks
        split <;> exact ⟨_, _, rfl⟩
      rw [hf] at hrun
      refine ⟨_, ⟨CallSite.finalization, rfc_init, b⟩, hrun, ?_, rfl⟩
      simp only [trace_of, List.nil_append, List.foldl_nil, List.head?_cons]
    | cons b bs =>
      rw [hb] at hrun
      refine ⟨_, ⟨CallSite.full_block, rfc_init, b⟩, hrun, ?_, rfl⟩
      simp only [trace_of, List.cons_append, List.head?_cons]


/-! ## Traversal order -/

theorem resize_length (v : List Int) (n : Nat) : (resize v n).length = n := by
  unfold resize
  rw [List.length_append, List.length_take, List.length_replicate]
  omega

theorem iota_eq_map_range : ∀ (l : List Int) (v : Int),
    iota l v = (List.range l.length).map (fun (k : Nat) => v + (k : Int))
  | [], _ => rfl
  | _ :: t, v => by
    rw [iota, iota_eq_map_range t (v + 1), List.length_cons, List.range_succ_eq_map,
      List.map_cons, List.map_map]
    congr 1
    · simp
    · apply List.map_congr_left
      intro k _
      simp only [Function.comp, Nat.succ_eq_add_one]
      push_cast
      ring

/-- After `resize` and `iota` the vector holds `0, 1, ..., n-1`, whatever it
held before. -/
theorem iota_resize (v : List Int) (n : Nat) :
    iota (resize v n) 0 = (List.range n).map (fun (k : Nat) => (k : Int)) := by
  rw [iota_eq_map_range, resize_length]
  apply List.map_congr_left
  intro k _
  simp

theorem range_cast_nodup (n : Nat) : ((List.range n).map (fun (k : Nat) => (k : Int))).Nodup :=
  List.Nodup.map (fun a b h => by simpa using h) (List.nodup_range n)

theorem mem_range_cast (n : Nat) (x : Int) :
    x ∈ (List.range n).map (fun (k : Nat) => (k : Int)) ↔ 0 ≤ x ∧ x < (n : Int) := by
  simp only [List.mem_map, List.mem_range]
  constructor
  · rintro ⟨k, hk, rfl⟩
    omega
  · rintro ⟨h0, hn⟩
    exact ⟨x.toNat, by omega, by omega⟩

/-- A permutation of `0, 1, ..., n-1` has length `n` and holds each of these
numbers exactly once and nothing else. -/
theorem perm_range_cast (r : List Int) (n : Nat)
    (hr : r.Perm ((List.range n).map (fun (k : Nat) => (k : Int)))) :
    (r.length : Int) = n
      ∧ (∀ k : Int, 0 ≤ k → k < (n : Int) → r.count k = 1)
      ∧ (∀ x ∈ r, 0 ≤ x ∧ x < (n : Int)) := by
  refine ⟨?_, ?_, ?_⟩
  · rw [hr.length_eq]
    simp
  · intro k h0 hn
    rw [hr.count_eq]
    exact List.count_eq_one_of_mem (range_cast_nodup n) ((mem_range_cast n k).mpr ⟨h0, hn⟩)
  · intro x hx
    exact (mem_range_cast n x).mp (hr.mem_iff.mp hx)

theorem randomizeIndices_perm (shuffle : List Int → (Nat → Nat) → List Int)
    (hperm : ∀ (l : List Int) (g : Nat → Nat), (shuffle l g).Perm l)
    (g : Nat → Nat) (indices : List Int) (count : Int) (hcount : 0 ≤ count) :
    ∃ r, randomizeIndices shuffle g indices count = some r
      ∧ r.Perm ((List.range count.toNat).map (fun (k : Nat) => (k : Int))) := by
  refine ⟨shuffle (iota (resize indices count.toNat) 0) g, ?_, ?_⟩
  · unfold randomizeIndices
    rw [if_pos hcount]
  · rw [← iota_resize indices count.toNat]
    exact hperm _ g

/-- Putting `x` at a position that held `b`, with `b` in front, rearranges
the list with `x` in front. -/
theorem cons_set_perm : ∀ (t : List Int) (j : Nat) (b x : Int), t[j]? = some b →
    (b :: t.set j x).Perm (x :: t)
  | [], j, b, x, h => by simp at h
  | y :: t, 0, b, x, h => by
    simp only [List.getElem?_cons_zero, Option.some.injEq] at h
    subst h
    simpa using List.Perm.swap x y t
  | y :: t, j + 1, b, x, h => by
    simp only [List.getElem?_cons_succ] at h
    simp only [List.set_cons_succ]
    exact (List.Perm.swap y b _).trans
      (((cons_set_perm t j b x h).cons y).trans (List.Perm.swap x y t))

theorem set_set_of_get : ∀ (l : List Int) (i j : Nat) (a b : Int),
    l[i]? = some a → l[j]? = some b → ((l.set i b).set j a).Perm l
  | [], i, j, a, b, hi, _ => by simp at hi
  | y :: t, 0, 0, a, b, hi, hj => by
    simp only [List.getElem?_cons_zero, Option.some.injEq] at hi hj
    subst hi
    simp
  | y :: t, 0, j + 1, a, b, hi, hj => by
    simp only [List.getElem?_cons_zero, Option.some.injEq] at hi
    simp only [List.getElem?_cons_succ] at hj
    subst hi
    simpa using cons_set_perm t j b y hj
  | y :: t, i + 1, 0, a, b, hi, hj => by
    simp only [List.getElem?_cons_zero, Option.some.injEq] at hj
    simp only [List.getElem?_cons_succ] at hi
    subst hj
    simpa using cons_set_perm t i a y hi
  | y :: t, i + 1, j + 1, a, b, hi, hj => by
    simp only [List.getElem?_cons_succ] at hi hj
    simpa using (set_set_of_get t i j a b hi hj).cons y

theorem iter_swap_perm (l : List Int) (i j : Nat) : (iter_swap l i j).Perm l := by
  unfold iter_swap
  cases hi : l[i]? with
  | none => exact List.Perm.refl l
  | some a =>
    cases hj : l[j]? with
    | none => exact List.Perm.refl l
    | some b => exact set_set_of_get l i j a b hi hj

theorem foldl_iter_swap_perm (pick : Nat → Nat) :
    ∀ (steps : List Nat) (l : List Int),
      (steps.foldl (fun acc i => iter_swap acc i (pick i)) l).Perm l
  | [], l => List.Perm.refl l
  | i :: steps, l => by
    rw [List.foldl_cons]
    exact (foldl_iter_swap_perm pick steps _).trans (iter_swap_perm l i (pick i))

/-- The Fisher-Yates shuffle rearranges its range, whatever the generator
draws. -/
theorem fisher_yates_perm (l : List Int) (g : Nat → Nat) : (fisher_yates l g).Perm l :=
  foldl_iter_swap_perm (fun i => g i % (i + 1)) _ l

/-- C6: for every count `N >= 0`, every prior content of `indices`, every
outcome of the generator and every `std::shuffle` that rearranges its range,
`randomizeIndices` returns and leaves `indices` with length exactly `N`,
holding every integer of `[0, N)` exactly once and nothing else. -/
theorem randomizeIndices_bijection (shuffle : List Int → (Nat → Nat) → List Int)
    (hperm : ∀ (l : List Int) (g : Nat → Nat), (shuffle l g).Perm l)
    (g : Nat → Nat) (indices : List Int) (count : Int) (hcount : 0 ≤ count) :
    ∃ r, randomizeIndices shuffle g indices count = some r
      ∧ (r.length : Int) = count
      ∧ (∀ k : Int, 0 ≤ k → k < count → r.count k = 1)
      ∧ (∀ x ∈ r, 0 ≤ x ∧ x < count) := by
  obtain ⟨r, hr, hp⟩ := randomizeIndices_perm shuffle hperm g indices count hcount
  have h := perm_range_cast r count.toNat hp
  rw [Int.toNat_of_nonneg hcount] at h
  exact ⟨r, hr, h⟩

/-- Witness for C6: the Fisher-Yates shuffle, a vector that held two stale
entries, six indices. -/
theorem randomizeIndices_bijection_witness :
    (∀ (l : List Int) (g : Nat → Nat), (fisher_yates l g).Perm l)
    ∧ (0 : Int) ≤ 6
    ∧ ∃ r, randomizeIndices fisher_yates (fun i => 7 * i + 3) [9, 9] 6 = some r
      ∧ (r.length : Int) = 6
      ∧ (∀ k : Int, 0 ≤ k → k < 6 → r.count k = 1)
      ∧ (∀ x ∈ r, 0 ≤ x ∧ x < 6) :=
  ⟨fisher_yates_perm, by decide,
   randomizeIndices_bijection fisher_yates fisher_yates_perm (fun i => 7 * i + 3) [9, 9] 6
     (by decide)⟩

/-- The Fisher-Yates shuffle on six indices with the draws `7 * i + 3`. -/
theorem randomizeIndices_example :
    randomizeIndices fisher_yates (fun i => 7 * i + 3) [9, 9] 6 = some [3, 4, 5, 1, 0, 2] := by
  decide

/-! ## Workload -/

/-- The loop of `randomizeBuffer` on a buffer of `packetSize` bytes stores
within the buffer and keeps its length. -/
theorem randomizeBuffer_loop_length (rand : Nat → Int) (packetSize : Int) :
    ∀ (k : Nat) (buf : List Nat) (pos i : Nat), buf.length - i = k →
      (buf.length : Int) = packetSize →
      ∃ buf1 pos1, randomizeBuffer_loop rand packetSize buf pos i = some (buf1, pos1)
        ∧ buf1.length = buf.length
  | 0, buf, pos, i, hk, hsz => by
    rw [randomizeBuffer_loop, if_neg (by omega)]
    exact ⟨buf, pos, rfl, rfl⟩
  | k + 1, buf, pos, i, hk, hsz => by
    rw [randomizeBuffer_loop, if_pos (by omega), if_pos (by omega)]
    obtain ⟨buf1, pos1, h1, h2⟩ := randomizeBuffer_loop_length rand packetSize k
      (buf.set i (to_uchar ((rand pos).tmod 256))) (pos + 1) (i + 1)
      (by rw [List.length_set]; omega) (by rw [List.length_set]; exact hsz)
    exact ⟨buf1, pos1, h1, by rw [h2, List.length_set]⟩

/-- With a non-negative random source, `count` rounds of the loop of
`randomizePackets` append `count` packets, each of a size in `100 .. 299` with
a buffer of exactly that many bytes. -/
theorem randomizePackets_loop_spec (rand : Nat → Int) (hrand : ∀ i, 0 ≤ rand i) :
    ∀ (count : Nat) (packets : List Packet) (pos : Nat),
      ∃ out pos1, randomizePackets_loop rand count packets pos = some (packets ++ out, pos1)
        ∧ out.length = count
        ∧ ∀ p ∈ out, 100 ≤ p.size ∧ p.size ≤ 299 ∧ (p.buf.length : Int) = p.size
  | 0, packets, pos => ⟨[], pos, by simp [randomizePackets_loop], rfl, by simp⟩
  | count + 1, packets, pos => by
    have h0 : 0 ≤ (rand pos).tmod 200 := Int.tmod_nonneg 200 (hrand pos)
    have h1 : (rand pos).tmod 200 < 200 := Int.tmod_lt_of_pos (rand pos) (by norm_num)
    have hmk : make_unique ((rand pos).tmod 200 + 100)
        = some (List.replicate ((rand pos).tmod 200 + 100).toNat 0) := by
      unfold make_unique
      rw [if_pos (by omega)]
    obtain ⟨buf1, pos1, hb, hl⟩ := randomizeBuffer_loop_length rand ((rand pos).tmod 200 + 100)
      ((rand pos).tmod 200 + 100).toNat
      (List.replicate ((rand pos).tmod 200 + 100).toNat 0) (pos + 1) 0
      (by rw [List.length_replicate]; rfl)
      (by rw [List.length_replicate]; exact Int.toNat_of_nonneg (by omega))
    obtain ⟨out, pos2, hrec, hlen, hall⟩ := randomizePackets_loop_spec rand hrand count
      (packets ++ [{ buf := buf1, size := (rand pos).tmod 200 + 100 }]) pos1
    refine ⟨{ buf := buf1, size := (rand pos).tmod 200 + 100 } :: out, pos2, ?_, ?_, ?_⟩
    · simp only [randomizePackets_loop, hmk, randomizeBuffer, hb, hrec, List.append_assoc,
        List.singleton_append]
    · simp [hlen]
    · intro p hp
      rcases List.mem_cons.mp hp with rfl | hp
      · refine ⟨by simp only; omega, by simp only; omega, ?_⟩
        simp only [hl, List.length_replicate]
        exact Int.toNat_of_nonneg (by omega)
      · exact hall p hp

theorem randomizePackets_spec (rand : Nat → Int) (hrand : ∀ i, 0 ≤ rand i) (pos : Nat) :
    ∃ packets pos1, randomizePackets rand [] pos = some (packets, pos1)
      ∧ packets.length = 1000000
      ∧ ∀ p ∈ packets, 100 ≤ p.size ∧ p.size ≤ 299 ∧ (p.buf.length : Int) = p.size := by
  obtain ⟨out, pos1, h, hlen, hall⟩ := randomizePackets_loop_spec rand hrand 1000000 [] pos
  exact ⟨out, pos1, by simpa [randomizePackets] using h, hlen, hall⟩

/-- C7: for every sequence of non-negative values returned by the random
source, `randomizePackets` called on an empty vector returns and leaves
exactly 1,000,000 packets, each with a recorded size `s`, `100 <= s <= 299`,
and a buffer of exactly `s` bytes. -/
theorem randomizePackets_million (rand : Nat → Int) (hrand : ∀ i, 0 ≤ rand i) (pos : Nat) :
    ∃ packets pos1, randomizePackets rand [] pos = some (packets, pos1)
      ∧ packets.length = 1000000
      ∧ ∀ p ∈ packets, 100 ≤ p.size ∧ p.size ≤ 299 ∧ (p.buf.length : Int) = p.size :=
  randomizePackets_spec rand hrand pos

/-- Witness for C7: the random source that returns `0, 1, 2, ...`. -/
theorem randomizePackets_million_witness :
    (∀ i : Nat, (0 : Int) ≤ (fun (n : Nat) => (n : Int)) i)
    ∧ ∃ packets pos1,
      randomizePackets (fun (n : Nat) => (n : Int)) [] 0 = some (packets, pos1)
      ∧ packets.length = 1000000
      ∧ ∀ p ∈ packets, 100 ≤ p.size ∧ p.size ≤ 299 ∧ (p.buf.length : Int) = p.size :=
  ⟨fun i => Int.ofNat_nonneg i,
   randomizePackets_million (fun (n : Nat) => (n : Int)) (fun i => Int.ofNat_nonneg i) 0⟩

/-! ## Reproducibility of the set-up -/

theorem iter_swap_self (l : List Int) (i : Nat) : iter_swap l i i = l := by
  unfold iter_swap
  cases h : l[i]? with
  | none => rfl
  | some a =>
    simp only
    obtain ⟨hi, ha⟩ := List.getElem?_eq_some.mp h
    apply List.ext_getElem?
    intro k
    by_cases hk : i = k
    · subst hk
      simp [List.getElem?_set, hi, h]
    · simp [List.getElem?_set, hk]

theorem foldl_iter_swap_id (pick : Nat → Nat) :
    ∀ (steps : List Nat) (l : List Int), (∀ i ∈ steps, pick i = i) →
      steps.foldl (fun acc i => iter_swap acc i (pick i)) l = l
  | [], _, _ => rfl
  | i :: steps, l, h => by
    rw [List.foldl_cons, h i (List.mem_cons_self _ _), iter_swap_self]
    exact foldl_iter_swap_id pick steps l (fun k hk => h k (List.mem_cons_of_mem _ hk))

/-- A generator whose every draw at step `i` is `i` itself leaves the range as
it is. -/
theorem fisher_yates_id (l : List Int) (g : Nat → Nat) (hg : ∀ i, g i % (i + 1) = i) :
    fisher_yates l g = l :=
  foldl_iter_swap_id (fun i => g i % (i + 1)) _ l (fun i _ => hg i)

/-- A generator that draws position 0 at step 1 and position `i` at every
later step `i` exchanges the first two elements. -/
theorem fisher_yates_first_two (l : List Int) (g : Nat → Nat) (hlen : 2 ≤ l.length)
    (h1 : g 1 % 2 = 0) (hg : ∀ i, 2 ≤ i → g i % (i + 1) = i) :
    fisher_yates l g = iter_swap l 1 0 := by
  unfold fisher_yates
  obtain ⟨n, hn⟩ : ∃ n, l.length - 1 = n + 1 := ⟨l.length - 2, by omega⟩
  rw [hn, List.range'_succ, List.foldl_cons]
  have e : g 1 % (1 + 1) = 0 := h1
  rw [e]
  apply foldl_iter_swap_id (fun i => g i % (i + 1))
  intro i hi
  have := (List.mem_range'_1.mp hi).1
  exact hg i (by omega)

theorem range_cast_getElem? (n k : Nat) (hk : k < n) :
    ((List.range n).map (fun (k : Nat) => (k : Int)))[k]? = some (k : Int) := by
  rw [List.getElem?_map, List.getElem?_range hk]
  rfl

theorem randomizeIndices_fresh (shuffle : List Int → (Nat → Nat) → List Int) (g : Nat → Nat)
    (n : Nat) :
    randomizeIndices shuffle g [] (n : Int)
      = some (shuffle ((List.range n).map (fun (k : Nat) => (k : Int))) g) := by
  unfold randomizeIndices
  rw [if_pos (Int.ofNat_nonneg n), iota_resize, Int.toNat_ofNat]

/-- The set-up, once the packets are known: the permutation is the shuffle of
`0, 1, ..., n-1` for the packet count `n`. -/
theorem main_setup_of_packets (crand : Nat → Nat → Int)
    (shuffle : List Int → (Nat → Nat) → List Int) (seed : Nat) (g : Nat → Nat)
    (packets : List Packet) (pos1 : Nat)
    (hp : randomizePackets (crand seed) [] 0 = some (packets, pos1)) :
    main_setup crand shuffle seed g
      = some (packets, shuffle ((List.range packets.length).map (fun (k : Nat) => (k : Int))) g) := by
  unfold main_setup
  rw [hp]
  simp only [randomizeIndices_fresh]

/-- Exchanging the first two of `0, 1, ..., n-1` changes the list. -/
theorem iter_swap_range_ne (n : Nat) (hn : 2 ≤ n) :
    (List.range n).map (fun (k : Nat) => (k : Int))
      ≠ iter_swap ((List.range n).map (fun (k : Nat) => (k : Int))) 1 0 := by
  intro heq
  have h0 := range_cast_getElem? n 0 (by omega)
  have h1 := range_cast_getElem? n 1 (by omega)
  have hz := congrArg (fun (l : List Int) => l[0]?) heq
  simp only [iter_swap, h0, h1] at hz
  rw [List.getElem?_set] at hz
  simp [h0] at hz

/-- C8, as stated, fails: two sessions with the same seed 0 (and the same
`std::rand` sequence `0, 1, 2, ...`) get the same packets but different index
permutations when the generator seeded from `std::random_device` draws
differently in the two sessions (here under the Fisher-Yates shuffle: every
draw picks the current position in one session; the first draw picks
position 0 in the other). -/
theorem main_setup_same_seed_other_permutation :
    ∃ (packets : List Packet) (idx1 idx2 : List Int),
      main_setup (fun _ (n : Nat) => (n : Int)) fisher_yates 0 (fun i => i)
          = some (packets, idx1)
      ∧ main_setup (fun _ (n : Nat) => (n : Int)) fisher_yates 0 (fun i => if i = 1 then 0 else i)
          = some (packets, idx2)
      ∧ idx1 ≠ idx2 := by
  obtain ⟨packets, pos1, hp, hlen, _⟩ :=
    randomizePackets_spec (fun (n : Nat) => (n : Int)) (fun i => Int.ofNat_nonneg i) 0
  have h2 : 2 ≤ packets.length := by rw [hlen]; norm_num
  refine ⟨packets, (List.range packets.length).map (fun (k : Nat) => (k : Int)),
    iter_swap ((List.range packets.length).map (fun (k : Nat) => (k : Int))) 1 0, ?_, ?_,
    iter_swap_range_ne packets.length h2⟩
  · rw [main_setup_of_packets (fun _ (n : Nat) => (n : Int)) fisher_yates 0 _ packets pos1 hp,
      fisher_yates_id _ _ (fun i => Nat.mod_eq_of_lt (Nat.lt_succ_self i))]
  · rw [main_setup_of_packets (fun _ (n : Nat) => (n : Int)) fisher_yates 0 _ packets pos1 hp,
      fisher_yates_first_two _ _ (by rw [List.length_map, List.length_range]; exact h2)
        (by simp)
        (fun i hi => by
          have hne : i ≠ 1 := by omega
          simp only [hne, if_false]
          exact Nat.mod_eq_of_lt (Nat.lt_succ_self i))]

/-- C8, amended: for every seed (and every `std::rand` and `std::shuffle`),
two sessions with the same seed produce identical packet collections,
whatever the generator seeded from `std::random_device` draws in each; they
produce identical index permutations too when that generator draws the same
in both. -/
theorem main_setup_packets_by_seed (crand : Nat → Nat → Int)
    (shuffle : List Int → (Nat → Nat) → List Int) (seed : Nat) (g1 g2 : Nat → Nat) :
    (main_setup crand shuffle seed g1).map Prod.fst
        = (main_setup crand shuffle seed g2).map Prod.fst
    ∧ ((∀ i, g1 i = g2 i) →
        main_setup crand shuffle seed g1 = main_setup crand shuffle seed g2) := by
  constructor
  · unfold main_setup
    cases randomizePackets (crand seed) [] 0 with
    | none => rfl
    | some r =>
      obtain ⟨packets, pos1⟩ := r
      simp only [randomizeIndices_fresh, Option.map_some']
  · intro h
    rw [funext h]

/-- Witness for C8 (amended): two sessions whose generators draw the same. -/
theorem main_setup_packets_by_seed_witness :
    (∀ i : Nat, (fun (n : Nat) => n) i = (fun (n : Nat) => n + 0) i)
    ∧ main_setup (fun _ (n : Nat) => (n : Int)) fisher_yates 0 (fun (n : Nat) => n)
        = main_setup (fun _ (n : Nat) => (n : Int)) fisher_yates 0 (fun (n : Nat) => n + 0) :=
  ⟨fun _ => rfl,
   (main_setup_packets_by_seed (fun _ (n : Nat) => (n : Int)) fisher_yates 0
      (fun (n : Nat) => n) (fun (n : Nat) => n + 0)).2 (fun _ => rfl)⟩

/-! ## Benchmark drivers -/

theorem main_loop_src (fn : Step) :
    ∀ (len : Nat) (m : Mem) (off : Nat) (r : Mem × Nat × Nat),
      main_loop fn m off len = some r → r.1.src = m.src := by
  intro len
  induction len using Nat.strong_induction_on with
  | _ len ih =>
    intro m off r h
    rw [main_loop] at h
    by_cases hge : len ≥ 64
    · rw [if_pos hge] at h
      cases hread : read_src m.src off 64 with
      | none => rw [hread] at h; cases h
      | some data =>
        rw [hread] at h
        simp only [] at h
        have hrec := ih (len - 64) (by omega) _ _ r h
        rw [hrec]
        rfl
    · rw [if_neg hge] at h
      cases h
      rfl

theorem write_block_src (m m1 : Mem) (off : Nat) (data : List Nat)
    (h : write_block m off data = some m1) : m1.src = m.src := by
  unfold write_block at h
  split at h
  · cases h; rfl
  · cases h

theorem final_loop_src (fn : Step) (totalLen : Nat) :
    ∀ (k : Nat) (m : Mem) (len iter : Nat) (m1 : Mem), 2 - iter = k →
      final_loop fn totalLen m len iter = some m1 → m1.src = m.src
  | 0, m, len, iter, m1, hk, h => by
    rw [final_loop, if_neg (by omega)] at h
    cases h
    rfl
  | k + 1, m, len, iter, m1, hk, h => by
    rw [final_loop, if_pos (by omega)] at h
    by_cases h0 : iter = 0
    · rw [if_pos h0] at h
      cases hm : memset_block m len (sub_size_t 64 len) with
      | none => rw [hm] at h; cases h
      | some m2 =>
        rw [hm] at h
        simp only [] at h
        have hrec := final_loop_src fn totalLen k _ _ _ m1 (by omega) h
        rw [hrec]
        exact write_block_src m m2 _ _ hm
    · rw [if_neg h0] at h
      cases hm : memset_block m len (sub_size_t (64 - 8) len) with
      | none => rw [hm] at h; cases h
      | some m2 =>
        rw [hm] at h
        simp only [] at h
        cases hw : write_block m2 (64 - 8) (le_bytes 8 totalLen) with
        | none => rw [hw] at h; cases h
        | some m3 =>
          rw [hw] at h
          simp only [] at h
          have hrec := final_loop_src fn totalLen k _ _ _ m1 (by omega) h
          rw [hrec]
          exact (write_block_src m2 m3 _ _ hw).trans (write_block_src m m2 _ _ hm)

/-- Every run of the engine that returns leaves the caller's buffer as it
was. -/
theorem md5_src (fn : Step) (st : MD5_STATE) (src : List Nat) (junk : Scratch) (len : Nat)
    (m : Mem) (h : md5 fn st src junk len = some m) : m.src = src := by
  unfold md5 at h
  simp only [] at h
  cases hl : main_loop fn
      { state := md5_init st, src := src, block := junk.val, calls := [] } 0 len with
  | none => rw [hl] at h; cases h
  | some r =>
    obtain ⟨m1, off, len1⟩ := r
    have hs1 : m1.src = src := main_loop_src fn len _ 0 _ hl
    rw [hl] at h
    simp only [] at h
    cases hr : read_src m1.src off (len1 &&& 63) with
    | none => rw [hr] at h; cases h
    | some tail =>
      rw [hr] at h
      simp only [] at h
      cases hw1 : write_block m1 0 tail with
      | none => rw [hw1] at h; cases h
      | some m2 =>
        rw [hw1] at h
        simp only [] at h
        cases hw2 : write_block m2 (len1 &&& 63) [0x80] with
        | none => rw [hw2] at h; cases h
        | some m3 =>
          rw [hw2] at h
          simp only [] at h
          rw [final_loop_src fn _ _ _ _ _ m rfl h, write_block_src m2 m3 _ _ hw2,
            write_block_src m1 m2 _ _ hw1, hs1]

theorem set_of_getElem? {α : Type} : ∀ (l : List α) (i : Nat) (a : α),
    l[i]? = some a → l.set i a = l
  | [], _, _, h => by simp at h
  | x :: t, 0, a, h => by
    simp only [List.getElem?_cons_zero, Option.some.injEq] at h
    subst h
    rfl
  | x :: t, i + 1, a, h => by
    simp only [List.getElem?_cons_succ] at h
    simp only [List.set_cons_succ, set_of_getElem? t i a h]

theorem to_size_t_of_int (n : Int) (h0 : 0 ≤ n) (h1 : n ≤ 2147483647) :
    to_size_t n = n.toNat := by
  unfold to_size_t
  rw [Int.emod_eq_of_lt h0 (by omega)]

/-- The buffer and length that a digest computation on `packets[index]`
is handed: the packet's buffer and its recorded size. -/
theorem packet_at_mem (packets : List Packet) (index : Int) (p : Packet)
    (h : packet_at packets index = some p) : p ∈ packets := by
  unfold packet_at at h
  split at h
  · exact List.getElem?_mem h
  · cases h

theorem packet_at_valid (packets : List Packet) (index : Int)
    (h : 0 ≤ index ∧ index < (packets.length : Int)) :
    ∃ p, packet_at packets index = some p := by
  unfold packet_at
  rw [if_pos h.1]
  have hlt : index.toNat < packets.length := by omega
  exact ⟨packets[index.toNat], List.getElem?_eq_getElem hlt⟩

/-- On a prefix of its buffer the engine returns, and what it returns depends
neither on the hash state found at entry nor on the content of the scratch
array. -/
theorem md5_returns (fn : Step) (src : List Nat) (len : Nat) (hlen : len ≤ src.length) :
    ∃ m : Mem, (∀ (st : MD5_STATE) (sc : Scratch), md5 fn st src sc len = some m)
      ∧ m.src = src ∧ m.state = md5_fold fn src len :=
  ⟨_, fun st sc => md5_run fn st src sc len hlen, rfl, rfl⟩

/-- The timed loop of `externalMD5` on valid indices and packets whose size
is within their buffer: it returns, leaves packets and indices as they were,
has called the engine once per index, on that packet's buffer and size, and
leaves in `hash` the state of the last call. -/
theorem externalMD5_loop_spec (fn : Step) (junk : Nat → Scratch) :
    ∀ (idx : List Int) (w : Workload) (hash : MD5_STATE),
      (∀ i ∈ idx, 0 ≤ i ∧ i < (w.packets.length : Int)) →
      (∀ p ∈ w.packets, 0 ≤ p.size ∧ p.size ≤ (p.buf.length : Int) ∧ p.size ≤ 2147483647) →
      externalMD5_loop fn junk idx w hash
        = some ({ w with
                  runs := w.runs ++ idx.map (fun i =>
                    ((packet_at w.packets i).map (fun p =>
                      ({ buf := p.buf, len := p.size.toNat,
                         result := digest_bytes (md5_fold fn p.buf p.size.toNat) } : Run))).getD
                      { buf := [], len := 0, result := [] }) },
                idx.foldl (fun h i =>
                    ((packet_at w.packets i).map
                      (fun p => md5_fold fn p.buf p.size.toNat)).getD h) hash)
  | [], w, hash, _, _ => by simp [externalMD5_loop]
  | index :: rest, w, hash, hidx, hwf => by
    obtain ⟨p, hp⟩ := packet_at_valid w.packets index (hidx index (List.mem_cons_self _ _))
    have hpw := hwf p (packet_at_mem _ _ _ hp)
    have hsz : to_size_t p.size = p.size.toNat := to_size_t_of_int p.size hpw.1 hpw.2.2
    have hle : p.size.toNat ≤ p.buf.length := by omega
    have hrun := md5_run fn hash p.buf (junk w.runs.length) p.size.toNat hle
    have hset : w.packets.set index.toNat p = w.packets := by
      apply set_of_getElem?
      unfold packet_at at hp
      rw [if_pos (hidx index (List.mem_cons_self _ _)).1] at hp
      exact hp
    have hrec := externalMD5_loop_spec fn junk rest
      { w with runs := w.runs ++ [{ buf := p.buf, len := p.size.toNat,
                                    result := digest_bytes (md5_fold fn p.buf p.size.toNat) }] }
      (md5_fold fn p.buf p.size.toNat)
      (fun i hi => hidx i (List.mem_cons_of_mem _ hi)) hwf
    simp only [externalMD5_loop, hp, hsz, call_md5, hrun, hset]
    simp only [md5_fold] at hrec ⊢
    rw [hrec]
    simp [hp]

/-- The timed loop of `deprecatedMD5` on valid indices: it returns, leaves
packets and indices as they were, has called the library once per index, on
that packet's buffer and size, and leaves in `out` the bytes of the last
call. -/
theorem deprecatedMD5_loop_spec (oracle : List Nat → Nat → List Nat) :
    ∀ (idx : List Int) (w : Workload) (out : List Nat),
      (∀ i ∈ idx, 0 ≤ i ∧ i < (w.packets.length : Int)) →
      (∀ p ∈ w.packets, 0 ≤ p.size ∧ p.size ≤ (p.buf.length : Int) ∧ p.size ≤ 2147483647) →
      deprecatedMD5_loop oracle idx w out
        = some ({ w with
                  runs := w.runs ++ idx.map (fun i =>
                    ((packet_at w.packets i).map (fun p =>
                      ({ buf := p.buf, len := p.size.toNat,
                         result := oracle p.buf p.size.toNat } : Run))).getD
                      { buf := [], len := 0, result := [] }) },
                idx.foldl (fun o i =>
                    ((packet_at w.packets i).map
                      (fun p => oracle p.buf p.size.toNat)).getD o) out)
  | [], w, out, _, _ => by simp [deprecatedMD5_loop]
  | index :: rest, w, out, hidx, hwf => by
    obtain ⟨p, hp⟩ := packet_at_valid w.packets index (hidx index (List.mem_cons_self _ _))
    have hpw := hwf p (packet_at_mem _ _ _ hp)
    have hsz : to_size_t p.size = p.size.toNat := to_size_t_of_int p.size hpw.1 hpw.2.2
    have hrec := deprecatedMD5_loop_spec oracle rest
      { w with runs := w.runs ++ [{ buf := p.buf, len := p.size.toNat,
                                    result := oracle p.buf p.size.toNat }] }
      (oracle p.buf p.size.toNat)
      (fun i hi => hidx i (List.mem_cons_of_mem _ hi)) hwf
    simp only [deprecatedMD5_loop, hp, hsz, call_calculate_md5, calculate_md5]
    rw [hrec]
    simp [hp]

/-- Every run of the timed loop of `externalMD5` that returns leaves packets
and indices as they were. -/
theorem externalMD5_loop_frame (fn : Step) (junk : Nat → Scratch) :
    ∀ (idx : List Int) (w : Workload) (hash : MD5_STATE) (r : Workload × MD5_STATE),
      externalMD5_loop fn junk idx w hash = some r →
      r.1.packets = w.packets ∧ r.1.indices = w.indices
  | [], w, hash, r, h => by
    simp only [externalMD5_loop, Option.some.injEq] at h
    subst h
    exact ⟨rfl, rfl⟩
  | index :: rest, w, hash, r, h => by
    rw [externalMD5_loop] at h
    cases hp : packet_at w.packets index with
    | none => rw [hp] at h; cases h
    | some p =>
      rw [hp] at h
      simp only [call_md5] at h
      cases hm : md5 fn hash p.buf (junk w.runs.length) (to_size_t p.size) with
      | none => rw [hm] at h; cases h
      | some m =>
        rw [hm] at h
        simp only [] at h
        have hsrc := md5_src fn hash p.buf _ _ m hm
        have hget : w.packets[index.toNat]? = some p := by
          unfold packet_at at hp
          split at hp
          · exact hp
          · cases hp
        have hset : w.packets.set index.toNat { p with buf := m.src } = w.packets := by
          rw [hsrc]
          exact set_of_getElem? _ _ _ hget
        rw [hset] at h
        have hrec := externalMD5_loop_frame fn junk rest _ _ r h
        exact hrec

/-- Every run of the timed loop of `deprecatedMD5` that returns leaves packets
and indices as they were. -/
theorem deprecatedMD5_loop_frame (oracle : List Nat → Nat → List Nat) :
    ∀ (idx : List Int) (w : Workload) (out : List Nat) (r : Workload × List Nat),
      deprecatedMD5_loop oracle idx w out = some r →
      r.1.packets = w.packets ∧ r.1.indices = w.indices
  | [], w, out, r, h => by
    simp only [deprecatedMD5_loop, Option.some.injEq] at h
    subst h
    exact ⟨rfl, rfl⟩
  | index :: rest, w, out, r, h => by
    rw [deprecatedMD5_loop] at h
    cases hp : packet_at w.packets index with
    | none => rw [hp] at h; cases h
    | some p =>
      rw [hp] at h
      simp only [] at h
      have hrec := deprecatedMD5_loop_frame oracle rest _ _ r h
      exact hrec

/-- Every run of the timed loop of `externalMD5` that returns has added one
record per index, in order, and the record for an index is that of a run of
the engine that returned, on that packet's buffer and on its size as a
`size_t`. -/
theorem externalMD5_loop_runs (fn : Step) (junk : Nat → Scratch) :
    ∀ (idx : List Int) (w : Workload) (hash : MD5_STATE) (r : Workload × MD5_STATE),
      externalMD5_loop fn junk idx w hash = some r →
      ∃ rs : List Run, r.1.runs = w.runs ++ rs ∧ rs.length = idx.length
        ∧ ∀ (k : Nat) (i : Int), idx[k]? = some i →
            ∃ (p : Packet) (st : MD5_STATE) (sc : Scratch) (m : Mem),
              packet_at w.packets i = some p
              ∧ md5 fn st p.buf sc (to_size_t p.size) = some m
              ∧ rs[k]? = some { buf := p.buf, len := to_size_t p.size,
                                result := digest_bytes m.state }
  | [], w, hash, r, h => by
    simp only [externalMD5_loop, Option.some.injEq] at h
    subst h
    exact ⟨[], by simp, rfl, by simp⟩
  | index :: rest, w, hash, r, h => by
    rw [externalMD5_loop] at h
    cases hp : packet_at w.packets index with
    | none => rw [hp] at h; cases h
    | some p =>
      rw [hp] at h
      simp only [call_md5] at h
      cases hm : md5 fn hash p.buf (junk w.runs.length) (to_size_t p.size) with
      | none => rw [hm] at h; cases h
      | some m =>
        rw [hm] at h
        simp only [] at h
        have hsrc := md5_src fn hash p.buf _ _ m hm
        have hget : w.packets[index.toNat]? = some p := by
          unfold packet_at at hp
          split at hp
          · exact hp
          · cases hp
        have hset : w.packets.set index.toNat { p with buf := m.src } = w.packets := by
          rw [hsrc]
          exact set_of_getElem? _ _ _ hget
        rw [hset, hsrc] at h
        obtain ⟨rs, hrs, hlen, hk⟩ := externalMD5_loop_runs fn junk rest _ _ r h
        refine ⟨{ buf := p.buf, len := to_size_t p.size,
                  result := digest_bytes m.state } :: rs, ?_, ?_, ?_⟩
        · rw [hrs]
          simp
        · simp [hlen]
        · intro k i hi
          cases k with
          | zero =>
            simp only [List.getElem?_cons_zero, Option.some.injEq] at hi
            subst hi
            exact ⟨p, hash, junk w.runs.length, m, hp, hm, List.getElem?_cons_zero⟩
          | succ k =>
            simp only [List.getElem?_cons_succ] at hi
            obtain ⟨p1, st, sc, m1, h1, h2, h3⟩ := hk k i hi
            exact ⟨p1, st, sc, m1, h1, h2, by simp only [List.getElem?_cons_succ]; exact h3⟩

/-- Every run of the timed loop of `deprecatedMD5` that returns has added one
record per index, in order, and the record for an index is that of a call of
the library on that packet's buffer and on its size as a `size_t`. -/
theorem deprecatedMD5_loop_runs (oracle : List Nat → Nat → List Nat) :
    ∀ (idx : List Int) (w : Workload) (out : List Nat) (r : Workload × List Nat),
      deprecatedMD5_loop oracle idx w out = some r →
      ∃ rs : List Run, r.1.runs = w.runs ++ rs ∧ rs.length = idx.length
        ∧ ∀ (k : Nat) (i : Int), idx[k]? = some i →
            ∃ p : Packet, packet_at w.packets i = some p
              ∧ rs[k]? = some { buf := p.buf, len := to_size_t p.size,
                                result := oracle p.buf (to_size_t p.size) }
  | [], w, out, r, h => by
    simp only [deprecatedMD5_loop, Option.some.injEq] at h
    subst h
    exact ⟨[], by simp, rfl, by simp⟩
  | index :: rest, w, out, r, h => by
    rw [deprecatedMD5_loop] at h
    cases hp : packet_at w.packets index with
    | none => rw [hp] at h; cases h
    | some p =>
      rw [hp] at h
      simp only [call_calculate_md5, calculate_md5] at h
      obtain ⟨rs, hrs, hlen, hk⟩ := deprecatedMD5_loop_runs oracle rest _ _ r h
      refine ⟨{ buf := p.buf, len := to_size_t p.size,
                result := oracle p.buf (to_size_t p.size) } :: rs, ?_, ?_, ?_⟩
      · rw [hrs]
        simp
      · simp [hlen]
      · intro k i hi
        cases k with
        | zero =>
          simp only [List.getElem?_cons_zero, Option.some.injEq] at hi
          subst hi
          exact ⟨p, hp, List.getElem?_cons_zero⟩
        | succ k =>
          simp only [List.getElem?_cons_succ] at hi
          obtain ⟨p1, h1, h3⟩ := hk k i hi
          exact ⟨p1, h1, by simp only [List.getElem?_cons_succ]; exact h3⟩

/-- C9: for every packet collection whose packets record a size within their
buffer, and every index sequence of valid packet indices, `externalMD5` (for
any compression step) and `deprecatedMD5` return, each after exactly one
digest computation per entry of the index sequence.  For the `k`-th entry,
with packet `p = packets[indices[k]]`: the engine returns on the buffer and
the full recorded size of `p`, the same whatever it finds in the hash state
and the scratch array; the `k`-th record of `externalMD5` is that run (the
buffer and size passed and the hash state the engine left); the `k`-th record
of `deprecatedMD5` is the call of the library on the same buffer and size; and
stopped after the first `k + 1` entries, `externalMD5` holds in `hash` the
state the engine leaves on `p` and `deprecatedMD5` holds in `out` the bytes
of the library for `p`.  So both drivers pass the same sequence of buffers and
sizes.  Without the condition on the sizes, every run of either driver that
returns has made one record per entry, the `k`-th that of a returning run of
the engine, respectively of the library, on the buffer of
`packets[indices[k]]` and its size converted to `size_t`. -/
theorem drivers_same_sequence (fn : Step) (junk : Nat → Scratch) (hash0 : MD5_STATE)
    (oracle : List Nat → Nat → List Nat) (packets : List Packet) (indices : List Int)
    (hidx : ∀ i ∈ indices, 0 ≤ i ∧ i < (packets.length : Int))
    (hwf : ∀ p ∈ packets, 0 ≤ p.size ∧ p.size ≤ (p.buf.length : Int) ∧ p.size ≤ 2147483647) :
    (∃ (e : Workload × MD5_STATE) (d : Workload × List Nat),
      externalMD5 fn junk hash0 packets indices = some e
      ∧ deprecatedMD5 oracle packets indices = some d
      ∧ e.1.runs.length = indices.length
      ∧ d.1.runs.length = indices.length
      ∧ (∀ (k : Nat) (i : Int), indices[k]? = some i →
          ∃ (p : Packet) (m : Mem),
            packet_at packets i = some p
            ∧ (∀ (st : MD5_STATE) (sc : Scratch), md5 fn st p.buf sc p.size.toNat = some m)
            ∧ e.1.runs[k]? = some { buf := p.buf, len := p.size.toNat,
                                    result := digest_bytes m.state }
            ∧ d.1.runs[k]? = some { buf := p.buf, len := p.size.toNat,
                                    result := oracle p.buf p.size.toNat }
            ∧ (∃ ek : Workload × MD5_STATE,
                externalMD5 fn junk hash0 packets (indices.take (k + 1)) = some ek
                ∧ ek.2 = m.state)
            ∧ (∃ dk : Workload × List Nat,
                deprecatedMD5 oracle packets (indices.take (k + 1)) = some dk
                ∧ dk.2 = oracle p.buf p.size.toNat))
      ∧ d.1.runs.map (fun r => (r.buf, r.len)) = e.1.runs.map (fun r => (r.buf, r.len)))
    ∧ (∀ (pk : List Packet) (ix : List Int) (h0 : MD5_STATE) (e : Workload × MD5_STATE),
        externalMD5 fn junk h0 pk ix = some e →
        e.1.runs.length = ix.length
        ∧ ∀ (k : Nat) (i : Int), ix[k]? = some i →
            ∃ (p : Packet) (st : MD5_STATE) (sc : Scratch) (m : Mem),
              packet_at pk i = some p
              ∧ md5 fn st p.buf sc (to_size_t p.size) = some m
              ∧ e.1.runs[k]? = some { buf := p.buf, len := to_size_t p.size,
                                      result := digest_bytes m.state })
    ∧ (∀ (pk : List Packet) (ix : List Int) (d : Workload × List Nat),
        deprecatedMD5 oracle pk ix = some d →
        d.1.runs.length = ix.length
        ∧ ∀ (k : Nat) (i : Int), ix[k]? = some i →
            ∃ p : Packet, packet_at pk i = some p
              ∧ d.1.runs[k]? = some { buf := p.buf, len := to_size_t p.size,
                                      result := oracle p.buf (to_size_t p.size) }) := by
  have he := externalMD5_loop_spec fn junk indices
    { packets := packets, indices := indices, runs := [] } hash0 hidx hwf
  have hd := deprecatedMD5_loop_spec oracle indices
    { packets := packets, indices := indices, runs := [] } (List.replicate 16 0) hidx hwf
  refine ⟨⟨_, _, he, hd, by simp, by simp, ?_, ?_⟩, ?_, ?_⟩
  · intro k i hk
    obtain ⟨p, hp⟩ := packet_at_valid packets i (hidx i (List.getElem?_mem hk))
    have hpw := hwf p (packet_at_mem _ _ _ hp)
    have hle : p.size.toNat ≤ p.buf.length := by omega
    have hidk : ∀ j ∈ indices.take (k + 1), 0 ≤ j ∧ j < (packets.length : Int) :=
      fun j hj => hidx j (List.mem_of_mem_take hj)
    have htake : indices.take (k + 1) = indices.take k ++ [i] := by
      rw [List.take_succ, hk]
      rfl
    refine ⟨p, _, hp, fun st sc => md5_run fn st p.buf sc p.size.toNat hle, ?_, ?_, ?_, ?_⟩
    · simp only [List.nil_append, List.getElem?_map, hk, Option.map_some', hp,
        Option.getD_some, md5_fold]
    · simp only [List.nil_append, List.getElem?_map, hk, Option.map_some', hp,
        Option.getD_some]
    · refine ⟨_, externalMD5_loop_spec fn junk (indices.take (k + 1))
        { packets := packets, indices := indices.take (k + 1), runs := [] } hash0 hidk hwf, ?_⟩
      simp only [htake, List.foldl_append, List.foldl_cons, List.foldl_nil, hp,
        Option.map_some', Option.getD_some, md5_fold]
    · refine ⟨_, deprecatedMD5_loop_spec oracle (indices.take (k + 1))
        { packets := packets, indices := indices.take (k + 1), runs := [] }
        (List.replicate 16 0) hidk hwf, ?_⟩
      simp only [htake, List.foldl_append, List.foldl_cons, List.foldl_nil, hp,
        Option.map_some', Option.getD_some]
  · simp only [List.nil_append, List.map_map]
    apply List.map_congr_left
    intro i _
    cases h : packet_at packets i <;> simp [h]
  · intro pk ix h0 e h
    obtain ⟨rs, hrs, hlen, hk⟩ := externalMD5_loop_runs fn junk ix _ h0 e h
    simp only [List.nil_append] at hrs
    rw [hrs]
    exact ⟨hlen, hk⟩
  · intro pk ix d h
    obtain ⟨rs, hrs, hlen, hk⟩ := deprecatedMD5_loop_runs oracle ix _ _ d h
    simp only [List.nil_append] at hrs
    rw [hrs]
    exact ⟨hlen, hk⟩

/-- Witness for C9: two packets, visited in the order 1, 0. -/
theorem drivers_same_sequence_witness :
    (∀ i ∈ ([1, 0] : List Int),
        0 ≤ i ∧ i < (([⟨[1, 2, 3], 3⟩, ⟨[4, 5], 2⟩] : List Packet).length : Int))
    ∧ (∀ p ∈ ([⟨[1, 2, 3], 3⟩, ⟨[4, 5], 2⟩] : List Packet),
        0 ≤ p.size ∧ p.size ≤ (p.buf.length : Int) ∧ p.size ≤ 2147483647)
    ∧ ∃ (e : Workload × MD5_STATE) (d : Workload × List Nat),
      externalMD5 rfc_compress (fun _ => ⟨List.replicate 64 7, by decide⟩) ⟨1, 2, 3, 4⟩
          [⟨[1, 2, 3], 3⟩, ⟨[4, 5], 2⟩] [1, 0] = some e
      ∧ deprecatedMD5 (fun b n => rfc_md5 (b.take n)) [⟨[1, 2, 3], 3⟩, ⟨[4, 5], 2⟩] [1, 0]
          = some d
      ∧ e.1.runs.length = ([1, 0] : List Int).length
      ∧ d.1.runs.length = ([1, 0] : List Int).length
      ∧ (∀ (k : Nat) (i : Int), ([1, 0] : List Int)[k]? = some i →
          ∃ (p : Packet) (m : Mem),
            packet_at [⟨[1, 2, 3], 3⟩, ⟨[4, 5], 2⟩] i = some p
            ∧ (∀ (st : MD5_STATE) (sc : Scratch),
                md5 rfc_compress st p.buf sc p.size.toNat = some m)
            ∧ e.1.runs[k]? = some { buf := p.buf, len := p.size.toNat,
                                    result := digest_bytes m.state }
            ∧ d.1.runs[k]? = some { buf := p.buf, len := p.size.toNat,
                                    result := rfc_md5 (p.buf.take p.size.toNat) }
            ∧ (∃ ek : Workload × MD5_STATE,
                externalMD5 rfc_compress (fun _ => ⟨List.replicate 64 7, by decide⟩)
                    ⟨1, 2, 3, 4⟩ [⟨[1, 2, 3], 3⟩, ⟨[4, 5], 2⟩]
                    (([1, 0] : List Int).take (k + 1)) = some ek
                ∧ ek.2 = m.state)
            ∧ (∃ dk : Workload × List Nat,
                deprecatedMD5 (fun b n => rfc_md5 (b.take n)) [⟨[1, 2, 3], 3⟩, ⟨[4, 5], 2⟩]
                    (([1, 0] : List Int).take (k + 1)) = some dk
                ∧ dk.2 = rfc_md5 (p.buf.take p.size.toNat)))
      ∧ d.1.runs.map (fun r => (r.buf, r.len)) = e.1.runs.map (fun r => (r.buf, r.len)) :=
  ⟨by decide, by decide,
   (drivers_same_sequence rfc_compress (fun _ => ⟨List.replicate 64 7, by decide⟩)
     ⟨1, 2, 3, 4⟩ (fun b n => rfc_md5 (b.take n)) [⟨[1, 2, 3], 3⟩, ⟨[4, 5], 2⟩] [1, 0]
     (by decide) (by decide)).1⟩

/-- C10: on valid indices and packets that record a size within their buffer,
`externalMD5` (with a compression step that reads its block and writes the
hash state) and `deprecatedMD5` return and leave the packet collection and the
index permutation exactly as they were; more generally every run of either
that returns, on any packets and indices, leaves both as they were; and every
run of `md5` that returns leaves the source buffer as it was (the engine's
writes go to the hash state and the scratch block). -/
theorem drivers_leave_workload (fn : Step) (junk : Nat → Scratch) (hash0 : MD5_STATE)
    (oracle : List Nat → Nat → List Nat) (packets : List Packet) (indices : List Int)
    (hidx : ∀ i ∈ indices, 0 ≤ i ∧ i < (packets.length : Int))
    (hwf : ∀ p ∈ packets, 0 ≤ p.size ∧ p.size ≤ (p.buf.length : Int) ∧ p.size ≤ 2147483647) :
    (∃ (e : Workload × MD5_STATE) (d : Workload × List Nat),
      externalMD5 fn junk hash0 packets indices = some e
      ∧ deprecatedMD5 oracle packets indices = some d
      ∧ e.1.packets = packets ∧ e.1.indices = indices
      ∧ d.1.packets = packets ∧ d.1.indices = indices)
    ∧ (∀ (pk : List Packet) (ix : List Int) (h0 : MD5_STATE) (e : Workload × MD5_STATE),
        externalMD5 fn junk h0 pk ix = some e → e.1.packets = pk ∧ e.1.indices = ix)
    ∧ (∀ (pk : List Packet) (ix : List Int) (d : Workload × List Nat),
        deprecatedMD5 oracle pk ix = some d → d.1.packets = pk ∧ d.1.indices = ix)
    ∧ (∀ (st : MD5_STATE) (src : List Nat) (sc : Scratch) (len : Nat) (m : Mem),
        md5 fn st src sc len = some m → m.src = src)
    ∧ (∀ (st : MD5_STATE) (src : List Nat) (sc : Scratch),
        ∃ m, md5 fn st src sc src.length = some m ∧ m.src = src) := by
  have he := externalMD5_loop_spec fn junk indices
    { packets := packets, indices := indices, runs := [] } hash0 hidx hwf
  have hd := deprecatedMD5_loop_spec oracle indices
    { packets := packets, indices := indices, runs := [] } (List.replicate 16 0) hidx hwf
  refine ⟨⟨_, _, he, hd, rfl, rfl, rfl, rfl⟩, ?_, ?_, ?_, ?_⟩
  · intro pk ix h0 e h
    exact externalMD5_loop_frame fn junk ix _ h0 e h
  · intro pk ix d h
    exact deprecatedMD5_loop_frame oracle ix _ _ d h
  · intro st src sc len m h
    exact md5_src fn st src sc len m h
  · intro st src sc
    exact ⟨_, md5_run fn st src sc src.length (Nat.le_refl _), rfl⟩

/-- Witness for C10: two packets, visited in the order 1, 0. -/
theorem drivers_leave_workload_witness :
    (∀ i ∈ ([1, 0] : List Int),
        0 ≤ i ∧ i < (([⟨[1, 2, 3], 3⟩, ⟨[4, 5], 2⟩] : List Packet).length : Int))
    ∧ (∀ p ∈ ([⟨[1, 2, 3], 3⟩, ⟨[4, 5], 2⟩] : List Packet),
        0 ≤ p.size ∧ p.size ≤ (p.buf.length : Int) ∧ p.size ≤ 2147483647)
    ∧ ∃ (e : Workload × MD5_STATE) (d : Workload × List Nat),
      externalMD5 rfc_compress (fun _ => ⟨List.replicate 64 7, by decide⟩) ⟨1, 2, 3, 4⟩
          [⟨[1, 2, 3], 3⟩, ⟨[4, 5], 2⟩] [1, 0] = some e
      ∧ deprecatedMD5 (fun b n => rfc_md5 (b.take n)) [⟨[1, 2, 3], 3⟩, ⟨[4, 5], 2⟩] [1, 0]
          = some d
      ∧ e.1.packets = [⟨[1, 2, 3], 3⟩, ⟨[4, 5], 2⟩] ∧ e.1.indices = [1, 0]
      ∧ d.1.packets = [⟨[1, 2, 3], 3⟩, ⟨[4, 5], 2⟩] ∧ d.1.indices = [1, 0] :=
  ⟨by decide, by decide,
   (drivers_leave_workload rfc_compress (fun _ => ⟨List.replicate 64 7, by decide⟩)
     ⟨1, 2, 3, 4⟩ (fun b n => rfc_md5 (b.take n)) [⟨[1, 2, 3], 3⟩, ⟨[4, 5], 2⟩] [1, 0]
     (by decide) (by decide)).1⟩

/-! ## The blocks handed to the compression step -/

theorem blocks_getElem? : ∀ (n : Nat) (l : List Nat) (i : Nat), i < n →
    (blocks n l)[i]? = some ((l.drop (64 * i)).take 64)
  | 0, _, _, h => by omega
  | n + 1, l, 0, _ => by simp [blocks]
  | n + 1, l, i + 1, h => by
    simp only [blocks, List.getElem?_cons_succ]
    rw [blocks_getElem? n _ i (by omega), List.drop_drop]
    congr 3
    omega

theorem trace_of_getElem? (fn : Step) (site : CallSite) :
    ∀ (bs : List (List Nat)) (st : MD5_STATE) (i : Nat) (b : List Nat), bs[i]? = some b →
      (trace_of fn site st bs)[i]? = some ⟨site, (bs.take i).foldl fn st, b⟩
  | [], _, _, _, h => by simp at h
  | c :: bs, st, 0, b, h => by
    simp only [List.getElem?_cons_zero, Option.some.injEq] at h
    subst h
    simp [trace_of]
  | c :: bs, st, i + 1, b, h => by
    simp only [List.getElem?_cons_succ] at h
    simp only [trace_of, List.getElem?_cons_succ, List.take_succ_cons, List.foldl_cons]
    exact trace_of_getElem? fn site bs (fn st c) i b h

/-- The run of the engine on a buffer, with the record of invocations split
into the calls of the main loop and the calls of the finalization loop. -/
theorem md5_calls (fn : Step) (st : MD5_STATE) (msg : List Nat) (junk : Scratch) :
    ∃ m, md5 fn st msg junk msg.length = some m
      ∧ m.calls = trace_of fn .full_block rfc_init (blocks (msg.length / 64) msg)
          ++ trace_of fn .finalization ((blocks (msg.length / 64) msg).foldl fn rfc_init)
              (final_blocks (leftover msg msg.length) ((msg.length <<< 3) % 2 ^ 64)) :=
  ⟨_, md5_run fn st msg junk msg.length (Nat.le_refl _), rfl⟩

theorem take_drop_getElem? (msg : List Nat) (i j : Nat) (hj : j < 64) :
    ((msg.drop (64 * i)).take 64)[j]? = msg[64 * i + j]? := by
  rw [List.getElem?_take_of_lt hj, List.getElem?_drop]

/-- The main loop, started as `md5` starts it on a buffer of `len` bytes:
it returns with the cursor past the full blocks and `len % 64 < 64` bytes
remaining. -/
theorem main_loop_remaining (fn : Step) (st : MD5_STATE) (msg : List Nat) (junk : Scratch) :
    ∃ m1, main_loop fn { state := md5_init st, src := msg, block := junk.val, calls := [] } 0
        msg.length = some (m1, 64 * (msg.length / 64), msg.length % 64)
      ∧ msg.length % 64 < 64 := by
  have h := main_loop_spec fn msg.length
    { state := md5_init st, src := msg, block := junk.val, calls := [] } 0 (by simp)
  rw [Nat.zero_add] at h
  exact ⟨_, h, Nat.mod_lt _ (by norm_num)⟩

/-- C13: on every buffer `msg` of length `len`, for every `i < len / 64` the
`i`-th invocation of the compression step is made by the main loop on exactly
the 64 bytes `msg[64*i .. 64*i+63]`; every later invocation is a finalization
call; the main loop returns with `len % 64 < 64` bytes remaining and the cursor
at `64 * (len / 64)`; a 64-byte input gives one full-block call on the input
itself and then exactly one finalization call, on the block of remainder 0. -/
theorem md5_full_block_calls (fn : Step) (st : MD5_STATE) (msg : List Nat) (junk : Scratch) :
    (∃ m, md5 fn st msg junk msg.length = some m
      ∧ (∀ (i : Fin (msg.length / 64)), ∃ c, m.calls[i.val]? = some c
          ∧ c.site = CallSite.full_block
          ∧ c.data = (msg.drop (64 * i.val)).take 64
          ∧ c.data.length = 64
          ∧ ∀ (j : Fin 64), c.data[j.val]? = msg[64 * i.val + j.val]?)
      ∧ (m.calls.drop (msg.length / 64)).map (fun c => c.site)
          = List.replicate (if msg.length % 64 ≤ 55 then 1 else 2) CallSite.finalization)
    ∧ (∃ m1, main_loop fn { state := md5_init st, src := msg, block := junk.val, calls := [] } 0
          msg.length = some (m1, 64 * (msg.length / 64), msg.length % 64)
        ∧ msg.length % 64 < 64)
    ∧ (∀ (blk : Scratch), ∃ m, md5 fn st blk.val junk 64 = some m
        ∧ m.calls
          = [⟨CallSite.full_block,
              { A := 0x67452301, B := 0xefcdab89, C := 0x98badcfe, D := 0x10325476 }, blk.val⟩,
             ⟨CallSite.finalization,
              fn { A := 0x67452301, B := 0xefcdab89, C := 0x98badcfe, D := 0x10325476 } blk.val,
              0x80 :: List.replicate 55 0 ++ le_bytes 8 512⟩]) := by
  refine ⟨?_, main_loop_remaining fn st msg junk, ?_⟩
  · obtain ⟨m, hm, hc⟩ := md5_calls fn st msg junk
    have hdm := Nat.div_add_mod msg.length 64
    refine ⟨m, hm, ?_, ?_⟩
    · intro i
      have hb := blocks_getElem? (msg.length / 64) msg i.val i.isLt
      have ht := trace_of_getElem? fn .full_block _ rfc_init i.val _ hb
      refine ⟨⟨.full_block, ((blocks (msg.length / 64) msg).take i.val).foldl fn rfc_init,
        (msg.drop (64 * i.val)).take 64⟩, ?_, rfl, rfl, ?_, ?_⟩
      · rw [hc, List.getElem?_append_left (by rw [trace_of_length, blocks_length]; exact i.isLt)]
        exact ht
      · have := i.isLt
        simp only [List.length_take, List.length_drop]
        omega
      · intro j
        exact take_drop_getElem? msg i.val j.val j.isLt
    · rw [hc, List.drop_left' (by rw [trace_of_length, blocks_length]), trace_of_sites,
        final_blocks_length, leftover_length msg msg.length (Nat.le_refl _)]
  · intro blk
    have hrun := md5_run fn st blk.val junk 64 (by rw [blk.property])
    refine ⟨_, hrun, ?_⟩
    have hb : blocks (64 / 64) blk.val = [blk.val] := by
      simp [blocks, List.take_of_length_le (Nat.le_of_eq blk.property)]
    have hl : leftover blk.val 64 = [] := by
      simp [leftover, List.drop_of_length_le (Nat.le_of_eq blk.property)]
    simp only [hb, hl, final_blocks, trace_of, List.length_nil, Nat.zero_le, if_true,
      List.foldl_cons, List.foldl_nil, List.nil_append, List.cons_append, List.singleton_append,
      Nat.sub_zero]
    simp [rfc_init, -List.reduceReplicate]

theorem trace_of_filter_same (fn : Step) (site : CallSite) :
    ∀ (bs : List (List Nat)) (st : MD5_STATE),
      (trace_of fn site st bs).filter (fun c => decide (c.site = site)) = trace_of fn site st bs
  | [], _ => rfl
  | b :: bs, st => by
    simp only [trace_of, List.filter_cons, decide_True, if_true, trace_of_filter_same fn site bs]

theorem trace_of_filter_full (fn : Step) :
    ∀ (bs : List (List Nat)) (st : MD5_STATE),
      (trace_of fn .full_block st bs).filter (fun c => decide (c.site = CallSite.finalization))
        = []
  | [], _ => rfl
  | b :: bs, st => by
    simp only [trace_of, List.filter_cons, trace_of_filter_full fn bs]
    simp

/-- The finalization calls of a run, in order. -/
theorem md5_final_calls (fn : Step) (st : MD5_STATE) (msg : List Nat) (junk : Scratch) :
    ∃ m, md5 fn st msg junk msg.length = some m
      ∧ m.calls.filter (fun c => decide (c.site = CallSite.finalization))
          = trace_of fn .finalization ((blocks (msg.length / 64) msg).foldl fn rfc_init)
              (final_blocks (leftover msg msg.length) ((msg.length <<< 3) % 2 ^ 64)) := by
  obtain ⟨m, hm, hc⟩ := md5_calls fn st msg junk
  refine ⟨m, hm, ?_⟩
  rw [hc, List.filter_append, trace_of_filter_full, trace_of_filter_same, List.nil_append]

/-- The leftover bytes of a buffer are its last `len % 64` bytes. -/
theorem leftover_eq_drop (msg : List Nat) :
    leftover msg msg.length = msg.drop (msg.length - msg.length % 64) := by
  have hdm := Nat.div_add_mod msg.length 64
  have e : 64 * (msg.length / 64) = msg.length - msg.length % 64 := by omega
  unfold leftover
  rw [e]
  exact List.take_of_length_le (by rw [List.length_drop]; omega)

/-- Offsets in a block laid out as leftover bytes, a marker byte, a run of
fill bytes and a trailer. -/
theorem layout_offsets (A Z F : List Nat) (x : Nat) :
    (∀ (j : Fin A.length), (A ++ [x] ++ Z ++ F)[j.val]? = A[j.val]?)
    ∧ (A ++ [x] ++ Z ++ F)[A.length]? = some x
    ∧ (∀ (j : Fin Z.length), (A ++ [x] ++ Z ++ F)[A.length + 1 + j.val]? = Z[j.val]?)
    ∧ (A ++ [x] ++ Z ++ F).drop (A.length + 1 + Z.length) = F := by
  refine ⟨?_, ?_, ?_, ?_⟩
  · intro j
    rw [List.append_assoc, List.append_assoc,
      List.getElem?_append_left j.isLt]
  · rw [List.append_assoc, List.append_assoc, List.getElem?_append_right (Nat.le_refl _)]
    simp
  · intro j
    have h1 : (A ++ [x]).length = A.length + 1 := by simp
    rw [List.append_assoc (A ++ [x]), List.getElem?_append_right (by omega), h1,
      List.getElem?_append_left (by have := j.isLt; omega)]
    congr 1
    omega
  · have h1 : (A ++ [x] ++ Z).length = A.length + 1 + Z.length := by
      simp only [List.length_append, List.length_singleton]
    rw [← h1, List.drop_left]

/-- C14: on every buffer whose remainder `R = len % 64` is at most 55, `md5`
returns after exactly one finalization call, on the 64-byte block made of the
`R` leftover bytes `msg[len-R .. len-1]` at offsets `0 .. R-1`, the byte `0x80`
at offset `R`, zero bytes at offsets `R+1 .. 55` and the 8-byte length field
at offsets `56 .. 63`. -/
theorem md5_single_final_block (fn : Step) (st : MD5_STATE) (msg : List Nat) (junk : Scratch)
    (hR : msg.length % 64 ≤ 55) :
    ∃ (m : Mem) (c : Call), md5 fn st msg junk msg.length = some m
      ∧ m.calls.filter (fun c => decide (c.site = CallSite.finalization)) = [c]
      ∧ c.data = msg.drop (msg.length - msg.length % 64) ++ [0x80]
          ++ List.replicate (55 - msg.length % 64) 0
          ++ le_bytes 8 ((msg.length <<< 3) % 2 ^ 64)
      ∧ c.data.length = 64
      ∧ (∀ (j : Fin (msg.length % 64)),
          c.data[j.val]? = msg[msg.length - msg.length % 64 + j.val]?)
      ∧ c.data[msg.length % 64]? = some 0x80
      ∧ (∀ (j : Fin (55 - msg.length % 64)), c.data[msg.length % 64 + 1 + j.val]? = some 0)
      ∧ c.data.drop 56 = le_bytes 8 ((msg.length <<< 3) % 2 ^ 64) := by
  obtain ⟨m, hm, hf⟩ := md5_final_calls fn st msg junk
  have hl := leftover_length msg msg.length (Nat.le_refl _)
  have hd := leftover_eq_drop msg
  rw [hd] at hl
  have hfb : final_blocks (leftover msg msg.length) ((msg.length <<< 3) % 2 ^ 64)
      = [msg.drop (msg.length - msg.length % 64) ++ [0x80]
          ++ List.replicate (55 - msg.length % 64) 0
          ++ le_bytes 8 ((msg.length <<< 3) % 2 ^ 64)] := by
    unfold final_blocks
    rw [hd, hl, if_pos hR]
  rw [hfb] at hf
  obtain ⟨o1, o2, o3, o4⟩ := layout_offsets (msg.drop (msg.length - msg.length % 64))
    (List.replicate (55 - msg.length % 64) 0) (le_bytes 8 ((msg.length <<< 3) % 2 ^ 64)) 0x80
  rw [hl] at o1 o2 o3 o4
  rw [List.length_replicate] at o3 o4
  refine ⟨m, _, hm, hf, rfl, ?_, ?_, o2, ?_, ?_⟩
  · simp only [List.length_append, hl, List.length_singleton, List.length_replicate,
      le_bytes_length]
    omega
  · intro j
    rw [o1 j, List.getElem?_drop]
  · intro j
    rw [o3 j]
    exact List.getElem?_replicate_of_lt j.isLt
  · have e : msg.length % 64 + 1 + (55 - msg.length % 64) = 56 := by omega
    rw [e] at o4
    exact o4

/-- Witness for C14: a 70-byte buffer (remainder 6). -/
theorem md5_single_final_block_witness :
    (List.replicate 70 (97 : Nat)).length % 64 ≤ 55
    ∧ ∃ (m : Mem) (c : Call),
      md5 rfc_compress ⟨1, 2, 3, 4⟩ (List.replicate 70 97) ⟨List.replicate 64 7, by decide⟩
          (List.replicate 70 (97 : Nat)).length = some m
      ∧ m.calls.filter (fun c => decide (c.site = CallSite.finalization)) = [c]
      ∧ c.data.length = 64
      ∧ c.data[(List.replicate 70 (97 : Nat)).length % 64]? = some 0x80 :=
  ⟨by decide,
   (md5_single_final_block rfc_compress ⟨1, 2, 3, 4⟩ (List.replicate 70 97)
      ⟨List.replicate 64 7, by decide⟩ (by decide)).imp
     (fun _ h => h.imp (fun _ h => ⟨h.1, h.2.1, h.2.2.2.1, h.2.2.2.2.2.1⟩))⟩

/-- C15: on every buffer whose remainder `R = len % 64` is at least 56, `md5`
returns after exactly two finalization calls: the first on the block made of
the `R` leftover bytes, the byte `0x80` at offset `R` and zero bytes up to
offset 63 (no length field), the second, from the state the first left, on the
block with zero bytes at offsets `0 .. 55` and the 8-byte length field at
offsets `56 .. 63`. -/
theorem md5_two_final_blocks (fn : Step) (st : MD5_STATE) (msg : List Nat) (junk : Scratch)
    (hR : 56 ≤ msg.length % 64) :
    ∃ (m : Mem) (c1 c2 : Call), md5 fn st msg junk msg.length = some m
      ∧ m.calls.filter (fun c => decide (c.site = CallSite.finalization)) = [c1, c2]
      ∧ c1.data = msg.drop (msg.length - msg.length % 64) ++ [0x80]
          ++ List.replicate (63 - msg.length % 64) 0
      ∧ c1.data.length = 64
      ∧ (∀ (j : Fin (msg.length % 64)),
          c1.data[j.val]? = msg[msg.length - msg.length % 64 + j.val]?)
      ∧ c1.data[msg.length % 64]? = some 0x80
      ∧ (∀ (j : Fin (63 - msg.length % 64)), c1.data[msg.length % 64 + 1 + j.val]? = some 0)
      ∧ c2.state = fn c1.state c1.data
      ∧ c2.data = List.replicate 56 0 ++ le_bytes 8 ((msg.length <<< 3) % 2 ^ 64)
      ∧ c2.data.length = 64
      ∧ (∀ (j : Fin 56), c2.data[j.val]? = some 0)
      ∧ c2.data.drop 56 = le_bytes 8 ((msg.length <<< 3) % 2 ^ 64) := by
  obtain ⟨m, hm, hf⟩ := md5_final_calls fn st msg junk
  have hlt : msg.length % 64 < 64 := Nat.mod_lt _ (by norm_num)
  have hl := leftover_length msg msg.length (Nat.le_refl _)
  have hd := leftover_eq_drop msg
  rw [hd] at hl
  have hfb : final_blocks (leftover msg msg.length) ((msg.length <<< 3) % 2 ^ 64)
      = [msg.drop (msg.length - msg.length % 64) ++ [0x80]
          ++ List.replicate (63 - msg.length % 64) 0,
         List.replicate 56 0 ++ le_bytes 8 ((msg.length <<< 3) % 2 ^ 64)] := by
    unfold final_blocks
    rw [hd, hl, if_neg (by omega)]
  rw [hfb] at hf
  obtain ⟨o1, o2, o3, _⟩ := layout_offsets (msg.drop (msg.length - msg.length % 64))
    (List.replicate (63 - msg.length % 64) 0) [] 0x80
  rw [hl] at o1 o2 o3
  rw [List.length_replicate] at o3
  simp only [List.append_nil] at o1 o2 o3
  refine ⟨m, _, _, hm, hf, rfl, ?_, ?_, o2, ?_, rfl, rfl, ?_, ?_, ?_⟩
  · simp only [List.length_append, hl, List.length_singleton, List.length_replicate]
    omega
  · intro j
    rw [o1 j, List.getElem?_drop]
  · intro j
    rw [o3 j]
    exact List.getElem?_replicate_of_lt j.isLt
  · simp only [List.length_append, List.length_replicate, le_bytes_length]
  · intro j
    rw [List.getElem?_append_left (by rw [List.length_replicate]; exact j.isLt)]
    exact List.getElem?_replicate_of_lt j.isLt
  · exact List.drop_left' (List.length_replicate 56 0)

/-- Witness for C15: a 60-byte buffer (remainder 60). -/
theorem md5_two_final_blocks_witness :
    56 ≤ (List.replicate 60 (97 : Nat)).length % 64
    ∧ ∃ (m : Mem) (c1 c2 : Call),
      md5 rfc_compress ⟨1, 2, 3, 4⟩ (List.replicate 60 97) ⟨List.replicate 64 7, by decide⟩
          (List.replicate 60 (97 : Nat)).length = some m
      ∧ m.calls.filter (fun c => decide (c.site = CallSite.finalization)) = [c1, c2]
      ∧ c1.data.length = 64
      ∧ c2.data = List.replicate 56 0
          ++ le_bytes 8 (((List.replicate 60 (97 : Nat)).length <<< 3) % 2 ^ 64) :=
  ⟨by decide,
   (md5_two_final_blocks rfc_compress ⟨1, 2, 3, 4⟩ (List.replicate 60 97)
      ⟨List.replicate 64 7, by decide⟩ (by decide)).imp
     (fun _ h => h.imp (fun _ h => h.imp (fun _ h =>
        ⟨h.1, h.2.1, h.2.2.2.1, h.2.2.2.2.2.2.2.2.1⟩)))⟩

/-! ## The length field -/

theorem le_word_le_bytes : ∀ (w v : Nat), le_word (le_bytes w v) = v % 256 ^ w
  | 0, v => by simp [le_bytes, le_word, Nat.mod_one]
  | w + 1, v => by
    have ih := le_word_le_bytes w (v / 256)
    unfold le_word at ih ⊢
    simp only [le_bytes, List.foldr_cons, ih, Nat.mod_mod]
    rw [pow_succ, Nat.mul_comm (256 ^ w) 256, Nat.mod_mul]

/-- The last block of the finalization ends in the 8-byte length field. -/
theorem final_blocks_getLast (tail : List Nat) (T : Nat) (ht : tail.length < 64) :
    ∃ pre, (final_blocks tail T).getLast? = some (pre ++ le_bytes 8 T) ∧ pre.length = 56 := by
  unfold final_blocks
  by_cases h : tail.length ≤ 55
  · rw [if_pos h]
    exact ⟨tail ++ [0x80] ++ List.replicate (55 - tail.length) 0, rfl, by simp; omega⟩
  · rw [if_neg h]
    exact ⟨List.replicate 56 0, rfl, by simp⟩

theorem trace_of_getLast? (fn : Step) (site : CallSite) :
    ∀ (bs : List (List Nat)) (st : MD5_STATE) (b : List Nat), bs.getLast? = some b →
      ∃ c, (trace_of fn site st bs).getLast? = some c ∧ c.site = site ∧ c.data = b
  | [], _, _, h => by simp at h
  | [x], st, b, h => by
    simp only [List.getLast?_singleton, Option.some.injEq] at h
    exact ⟨⟨site, st, x⟩, rfl, rfl, h⟩
  | x :: y :: bs, st, b, h => by
    rw [List.getLast?_cons_cons] at h
    obtain ⟨c, hc, h1, h2⟩ := trace_of_getLast? fn site (y :: bs) (fn st x) b h
    refine ⟨c, ?_, h1, h2⟩
    simp only [trace_of] at hc ⊢
    rw [List.getLast?_cons_cons]
    exact hc

/-- The last invocation of a run is a finalization call on a block whose last
eight bytes are the bytes of `(len << 3) mod 2^64`, least significant first. -/
theorem md5_last_call (fn : Step) (st : MD5_STATE) (msg : List Nat) (junk : Scratch) :
    ∃ (m : Mem) (c : Call), md5 fn st msg junk msg.length = some m
      ∧ m.calls.getLast? = some c
      ∧ c.site = CallSite.finalization
      ∧ c.data.length = 64
      ∧ c.data.drop 56 = le_bytes 8 ((8 * msg.length) % 2 ^ 64) := by
  obtain ⟨m, hm, hc⟩ := md5_calls fn st msg junk
  have hlt : (leftover msg msg.length).length < 64 := by
    rw [leftover_length msg msg.length (Nat.le_refl _)]
    exact Nat.mod_lt _ (by norm_num)
  obtain ⟨pre, hlast, hpre⟩ := final_blocks_getLast (leftover msg msg.length)
    ((msg.length <<< 3) % 2 ^ 64) hlt
  obtain ⟨c, hcl, hsite, hdata⟩ := trace_of_getLast? fn .finalization _
    ((blocks (msg.length / 64) msg).foldl fn rfc_init) _ hlast
  refine ⟨m, c, hm, ?_, hsite, ?_, ?_⟩
  · rw [hc, List.getLast?_append, hcl]
    rfl
  · rw [hdata, List.length_append, hpre, le_bytes_length]
  · rw [hdata, ← hpre, List.drop_left, shl3_mod]

/-- C16: on every buffer, the 8 bytes at offsets `56 .. 63` of the last block
`md5` passes to the compression step are the little-endian bytes of
`(8 * len) mod 2^64` for the original length `len` of the buffer: read back
least significant byte first they give that number, which for `len < 2^61` is
exactly `8 * len`, the message length in bits. -/
theorem md5_length_field (fn : Step) (st : MD5_STATE) (msg : List Nat) (junk : Scratch) :
    (∃ (m : Mem) (c : Call), md5 fn st msg junk msg.length = some m
      ∧ m.calls.getLast? = some c
      ∧ c.data.length = 64
      ∧ c.data.drop 56 = le_bytes 8 ((8 * msg.length) % 2 ^ 64)
      ∧ le_word (c.data.drop 56) = (8 * msg.length) % 2 ^ 64)
    ∧ (msg.length < 2 ^ 61 →
        ∃ (m : Mem) (c : Call), md5 fn st msg junk msg.length = some m
          ∧ m.calls.getLast? = some c
          ∧ le_word (c.data.drop 56) = 8 * msg.length) := by
  obtain ⟨m, c, hm, hl, _, hlen, hd⟩ := md5_last_call fn st msg junk
  have hw : le_word (c.data.drop 56) = (8 * msg.length) % 2 ^ 64 := by
    rw [hd, le_word_le_bytes]
    exact Nat.mod_eq_of_lt (Nat.mod_lt _ (by norm_num))
  refine ⟨⟨m, c, hm, hl, hlen, hd, hw⟩, ?_⟩
  intro h61
  refine ⟨m, c, hm, hl, ?_⟩
  rw [hw]
  exact Nat.mod_eq_of_lt (by omega)

/-- Witness for C16: a 70-byte buffer, whose length field reads 560. -/
theorem md5_length_field_witness :
    (List.replicate 70 (97 : Nat)).length < 2 ^ 61
    ∧ ∃ (m : Mem) (c : Call),
      md5 rfc_compress ⟨1, 2, 3, 4⟩ (List.replicate 70 97) ⟨List.replicate 64 7, by decide⟩
          (List.replicate 70 (97 : Nat)).length = some m
      ∧ m.calls.getLast? = some c
      ∧ le_word (c.data.drop 56) = 8 * (List.replicate 70 (97 : Nat)).length :=
  ⟨by decide,
   (md5_length_field rfc_compress ⟨1, 2, 3, 4⟩ (List.replicate 70 97)
      ⟨List.replicate 64 7, by decide⟩).2 (by decide)⟩

/-! ## Memory accesses -/

theorem read_src_isSome (src : List Nat) (off n : Nat) :
    (read_src src off n).isSome ↔ off + n ≤ src.length := by
  unfold read_src
  by_cases h : off + n ≤ src.length
  · simp [h]
  · simp [h]

theorem write_block_isSome (m : Mem) (off : Nat) (data : List Nat) :
    (write_block m off data).isSome ↔ off + data.length ≤ 64 := by
  unfold write_block
  by_cases h : off + data.length ≤ 64
  · simp [h]
  · simp [h]

theorem write_block_none (m : Mem) (off : Nat) (data : List Nat)
    (h : 64 < off + data.length) : write_block m off data = none := by
  unfold write_block
  rw [if_neg (by omega)]

/-- A first pass of the finalization loop with more than 64 bytes in the
block would write outside the block. -/
theorem final_loop_zero_fault (fn : Step) (T : Nat) (m : Mem) (k : Nat) :
    final_loop fn T m (65 + k) 0 = none := by
  rw [final_loop]
  have h : memset_block m (65 + k) (sub_size_t 64 (65 + k)) = none :=
    write_block_none m _ _ (by rw [List.length_replicate]; omega)
  simp [h]

/-- A length-writing pass of the finalization loop with more than 56 bytes in
the block would write outside the block. -/
theorem final_loop_one_fault (fn : Step) (T : Nat) (m : Mem) (k : Nat) :
    final_loop fn T m (57 + k) 1 = none := by
  rw [final_loop]
  have h : memset_block m (57 + k) (sub_size_t (64 - 8) (57 + k)) = none := by
    apply write_block_none
    rw [List.length_replicate]
    by_cases hk : 57 + k ≤ 64
    · have hmod : (57 + k) % 2 ^ 64 = 57 + k := Nat.mod_eq_of_lt (by omega)
      have hlt : 64 - 8 + 2 ^ 64 - (57 + k) < 2 ^ 64 := by omega
      unfold sub_size_t
      rw [hmod, Nat.mod_eq_of_lt hlt]
      omega
    · omega
  simp [h]

/-- The finalization loop as `md5` enters it on a buffer of `len` bytes: with
`len % 64 + 1` bytes in the block, at `iter = 1` when these are at most 56 and
at `iter = 0` otherwise. -/
theorem md5_enters_final_loop (fn : Step) (st : MD5_STATE) (msg : List Nat) (junk : Scratch) :
    ∃ m3, md5 fn st msg junk msg.length
        = final_loop fn ((msg.length <<< 3) % 2 ^ 64) m3 (msg.length % 64 + 1)
            (if msg.length % 64 + 1 ≤ 64 - 8 then 1 else 0)
      ∧ m3.block = leftover msg msg.length ++ [0x80] ++ junk.val.drop (msg.length % 64 + 1)
      ∧ msg.length % 64 + 1 ≤ 64 := by
  have hR := leftover_length msg msg.length (Nat.le_refl _)
  have hdm := Nat.div_add_mod msg.length 64
  have hlt : msg.length % 64 < 64 := Nat.mod_lt _ (by norm_num)
  have hread : read_src msg (64 * (msg.length / 64)) (msg.length % 64)
      = some (leftover msg msg.length) := by
    unfold read_src leftover
    rw [if_pos (by omega)]
  refine ⟨{ state := (blocks (msg.length / 64) msg).foldl fn (md5_init st), src := msg,
            block := leftover msg msg.length ++ [0x80] ++ junk.val.drop (msg.length % 64 + 1),
            calls := trace_of fn .full_block (md5_init st) (blocks (msg.length / 64) msg) },
    ?_, rfl, by omega⟩
  unfold md5
  simp only []
  rw [main_loop_spec fn msg.length _ 0 (by simp)]
  simp only [List.drop_zero, Nat.zero_add, and_63, Nat.mod_mod, List.nil_append, hread]
  rw [write_block_at _ [] junk.val (leftover msg msg.length) 0 rfl rfl (by simp [hR]; omega)]
  simp only [List.nil_append, hR]
  rw [write_block_at _ (leftover msg msg.length) (List.drop (msg.length % 64) junk.val)
    [0x80] (msg.length % 64) rfl hR (by simp; omega)]
  simp only [List.length_singleton, List.drop_drop]

/-- C17: on every source buffer of exactly `len` bytes, `md5` runs without an
access fault: every read of the source stays within its `len` bytes and every
write stays within the 64 bytes of the scratch block (a read or write is a
fault exactly when it leaves them).  The finalization loop is entered with
`len % 64 + 1 <= 64` bytes in the block, at the length-writing pass only when
these are at most 56; the `size_t` differences `64 - len` for `len <= 64` and
`64 - 8 - len` for `len <= 56` do not wrap, and a pass with a larger `len`
would be a fault. -/
theorem md5_accesses_in_bounds (fn : Step) (st : MD5_STATE) (msg : List Nat) (junk : Scratch) :
    (∃ m, md5 fn st msg junk msg.length = some m)
    ∧ (∀ (src : List Nat) (off n : Nat), (read_src src off n).isSome ↔ off + n ≤ src.length)
    ∧ (∀ (m : Mem) (off : Nat) (data : List Nat),
        (write_block m off data).isSome ↔ off + data.length ≤ 64)
    ∧ (∃ m3, md5 fn st msg junk msg.length
          = final_loop fn ((msg.length <<< 3) % 2 ^ 64) m3 (msg.length % 64 + 1)
              (if msg.length % 64 + 1 ≤ 64 - 8 then 1 else 0)
        ∧ msg.length % 64 + 1 ≤ 64)
    ∧ (∀ (len : Fin 65), sub_size_t 64 len.val = 64 - len.val)
    ∧ (∀ (len : Fin 57), sub_size_t (64 - 8) len.val = 56 - len.val)
    ∧ (∀ (T : Nat) (m : Mem) (k : Nat), final_loop fn T m (65 + k) 0 = none)
    ∧ (∀ (T : Nat) (m : Mem) (k : Nat), final_loop fn T m (57 + k) 1 = none) := by
  refine ⟨⟨_, md5_run fn st msg junk msg.length (Nat.le_refl _)⟩, read_src_isSome,
    write_block_isSome, ?_, ?_, ?_, final_loop_zero_fault fn, final_loop_one_fault fn⟩
  · obtain ⟨m3, h, _, hle⟩ := md5_enters_final_loop fn st msg junk
    exact ⟨m3, h, hle⟩
  · intro len
    exact sub_size_t_of_le 64 len.val (by have := len.isLt; omega) (by norm_num)
  · intro len
    exact sub_size_t_of_le 56 len.val (by have := len.isLt; omega) (by norm_num)

/-! ## Reported percentages -/

theorem round_half_even_ge (q : ℚ) : (⌊q⌋ : ℤ) ≤ round_half_even q := by
  unfold round_half_even
  split_ifs <;> omega

theorem round_half_even_le (q : ℚ) : round_half_even q ≤ ⌊q⌋ + 1 := by
  unfold round_half_even
  split_ifs <;> omega

theorem round_half_even_near (q : ℚ) : |(round_half_even q : ℚ) - q| ≤ 1 / 2 := by
  have h1 := Int.floor_le q
  have h2 := Int.lt_floor_add_one q
  unfold round_half_even
  rw [abs_le]
  split_ifs with ha hb hc
  · constructor <;> linarith
  · push_cast; constructor <;> linarith
  · have : q - ⌊q⌋ = 1 / 2 := le_antisymm (not_lt.mp hb) (not_lt.mp ha)
    constructor <;> linarith
  · have : q - ⌊q⌋ = 1 / 2 := le_antisymm (not_lt.mp hb) (not_lt.mp ha)
    push_cast; constructor <;> linarith

theorem round_half_even_of_near (q : ℚ) (m : ℤ) (h : |q - m| < 1 / 2) :
    round_half_even q = m := by
  rw [abs_lt] at h
  have hn := round_half_even_near q
  rw [abs_le] at hn
  have : |((round_half_even q - m : ℤ) : ℚ)| < 1 := by
    rw [abs_lt]; push_cast; constructor <;> linarith [h.1, h.2, hn.1, hn.2]
  have h2 : |round_half_even q - m| < 1 := by exact_mod_cast this
  have := Int.abs_lt_one_iff.mp h2
  omega

theorem binade_le (q : ℚ) (hq : q ≠ 0) : (2 : ℚ) ^ binade q ≤ |q| := by
  have := Int.zpow_log_le_self (b := 2) (r := |q|) (by norm_num) (abs_pos.mpr hq)
  simpa [binade] using this

theorem binade_lt (q : ℚ) : |q| < (2 : ℚ) ^ (binade q + 1) := by
  have := Int.lt_zpow_succ_log_self (b := 2) (by norm_num) |q|
  simpa [binade] using this

theorem binade_eq (q : ℚ) (e : ℤ) (h1 : (2 : ℚ) ^ e ≤ |q|) (h2 : |q| < (2 : ℚ) ^ (e + 1)) :
    binade q = e := by
  have hpos : (0 : ℚ) < |q| := lt_of_lt_of_le (by positivity) h1
  have a := (Int.zpow_le_iff_le_log (b := 2) (by norm_num) hpos (x := e)).mp (by simpa using h1)
  have b := (Int.lt_zpow_iff_log_lt (b := 2) (by norm_num) hpos (x := e + 1)).mp (by simpa using h2)
  unfold binade
  omega

theorem to_double_zero : to_double 0 = 0 := by simp [to_double]

theorem scaled_ge (q : ℚ) (hq : 0 < q) : (2 : ℚ) ^ (52 : ℤ) ≤ q / 2 ^ (binade q - 52) := by
  have h := binade_le q hq.ne'
  rw [abs_of_pos hq] at h
  rw [le_div_iff₀ (by positivity), ← zpow_add₀ (by norm_num : (2 : ℚ) ≠ 0)]
  simpa using h

theorem to_double_pos (q : ℚ) (hq : 0 < q) : 0 < to_double q := by
  unfold to_double
  rw [if_neg hq.ne']
  have h := scaled_ge q hq
  have hf : (1 : ℤ) ≤ ⌊q / 2 ^ (binade q - 52)⌋ := by
    rw [Int.le_floor]
    refine le_trans ?_ h
    norm_num
  have hr := round_half_even_ge (q / 2 ^ (binade q - 52))
  have : (0 : ℚ) < (round_half_even (q / 2 ^ (binade q - 52)) : ℚ) := by
    exact_mod_cast (by omega : (0 : ℤ) < round_half_even (q / 2 ^ (binade q - 52)))
  positivity


theorem scaled_le_neg (q : ℚ) (hq : q < 0) : q / 2 ^ (binade q - 52) ≤ -(2 : ℚ) ^ (52 : ℤ) := by
  have h := binade_le q hq.ne
  rw [abs_of_neg hq] at h
  rw [div_le_iff₀ (by positivity), neg_mul, ← zpow_add₀ (by norm_num : (2 : ℚ) ≠ 0)]
  have e : (52 : ℤ) + (binade q - 52) = binade q := by ring
  rw [e]
  linarith

theorem to_double_neg (q : ℚ) (hq : q < 0) : to_double q < 0 := by
  unfold to_double
  rw [if_neg hq.ne]
  have h := scaled_le_neg q hq
  have hf : ⌊q / 2 ^ (binade q - 52)⌋ ≤ (-2 : ℤ) := by
    have h1 := Int.floor_le (q / 2 ^ (binade q - 52))
    have h2 : (⌊q / 2 ^ (binade q - 52)⌋ : ℚ) ≤ ((-2 : ℤ) : ℚ) := by
      refine le_trans h1 (le_trans h ?_)
      norm_num
    exact_mod_cast h2
  have hr := round_half_even_le (q / 2 ^ (binade q - 52))
  have hneg : (round_half_even (q / 2 ^ (binade q - 52)) : ℚ) < 0 := by
    exact_mod_cast (by omega : round_half_even (q / 2 ^ (binade q - 52)) < (0 : ℤ))
  exact mul_neg_of_neg_of_pos hneg (by positivity)

/-- Rounding to `double` changes a value by at most `2^-53` of its size. -/
theorem to_double_error (q : ℚ) : |to_double q - q| ≤ |q| * (1 / 2 ^ 53) := by
  by_cases hq : q = 0
  · subst hq
    simp [to_double_zero]
  · unfold to_double
    rw [if_neg hq]
    have hpos : (0 : ℚ) < 2 ^ (binade q - 52) := by positivity
    have hnear := round_half_even_near (q / 2 ^ (binade q - 52))
    have hb := binade_le q hq
    have e1 : (round_half_even (q / 2 ^ (binade q - 52)) : ℚ) * 2 ^ (binade q - 52) - q
        = ((round_half_even (q / 2 ^ (binade q - 52)) : ℚ) - q / 2 ^ (binade q - 52))
          * 2 ^ (binade q - 52) := by
      field_simp
    rw [e1, abs_mul, abs_of_pos hpos]
    have e2 : (2 : ℚ) ^ binade q = 2 ^ (binade q - 52) * 2 ^ (52 : ℕ) := by
      rw [← zpow_natCast, ← zpow_add₀ (by norm_num : (2 : ℚ) ≠ 0)]
      congr 1
      push_cast
      ring
    rw [e2] at hb
    calc |(round_half_even (q / 2 ^ (binade q - 52)) : ℚ) - q / 2 ^ (binade q - 52)|
          * 2 ^ (binade q - 52)
        ≤ 1 / 2 * 2 ^ (binade q - 52) := by gcongr
      _ = 2 ^ (binade q - 52) * 2 ^ (52 : ℕ) * (1 / 2 ^ 53) := by norm_num; ring
      _ ≤ |q| * (1 / 2 ^ 53) := by gcongr

theorem to_double_of_near (q : ℚ) (e m : ℤ) (h1 : (2 : ℚ) ^ (e + 52) ≤ |q|)
    (h2 : |q| < (2 : ℚ) ^ (e + 52 + 1)) (hm : |q / 2 ^ e - m| < 1 / 2) :
    to_double q = m * 2 ^ e := by
  have hb := binade_eq q (e + 52) h1 h2
  have hq : q ≠ 0 := by
    intro h
    rw [h, abs_zero] at h1
    exact absurd h1 (not_le.mpr (by positivity))
  unfold to_double
  rw [if_neg hq, hb]
  have e1 : e + 52 - 52 = e := by ring
  rw [e1, round_half_even_of_near _ m hm]

theorem to_double_three : to_double 3 = 3 := by
  have := to_double_of_near 3 (-51) (3 * 2 ^ 51) (by norm_num) (by norm_num) (by norm_num)
  rw [this]
  norm_num

theorem to_double_one : to_double 1 = 1 := by
  have := to_double_of_near 1 (-52) (2 ^ 52) (by norm_num) (by norm_num) (by norm_num)
  rw [this]
  norm_num

/-- The percentage computed for a baseline of 3 ns and a candidate of 2 ns:
the `double` 33.33333333333333. -/
theorem percentage_delta_three_two : percentage_delta 3 2 = 2345624805922133 / 70368744177664 := by
  have hs : sub_int64 3 2 = 1 := by decide
  unfold percentage_delta
  rw [hs]
  have h3 : to_double ((3 : ℤ) : ℚ) = 3 := by exact_mod_cast to_double_three
  have h1 : to_double ((1 : ℤ) : ℚ) = 1 := by exact_mod_cast to_double_one
  rw [h3, h1]
  have hq := to_double_of_near (1 / 3) (-54) 6004799503160661 (by norm_num [abs_of_pos])
    (by norm_num [abs_of_pos]) (by norm_num [abs_lt])
  rw [hq]
  have hr := to_double_of_near (6004799503160661 * 2 ^ (-54 : ℤ) * 100) (-47) 4691249611844266
    (by norm_num [abs_of_pos]) (by norm_num [abs_of_pos]) (by norm_num [abs_lt])
  push_cast at hr ⊢
  rw [hr]
  norm_num

theorem sub_int64_of_counts (b c : Int) (hlo : -2 ^ 63 ≤ b - c) (hhi : b - c < 2 ^ 63) :
    sub_int64 b c = b - c := by
  unfold sub_int64
  omega

/-- Relative error through a further approximation. -/
theorem rel_trans (x y z e1 e2 : ℚ) (h1 : |x - y| ≤ |y| * e1) (h2 : |y - z| ≤ |z| * e2)
    (he1 : 0 ≤ e1) : |x - z| ≤ |z| * (e1 + e2 + e1 * e2) := by
  have hy : |y| ≤ |z| + |z| * e2 := by
    have := abs_sub_abs_le_abs_sub y z
    linarith
  have hxz : |x - z| ≤ |x - y| + |y - z| := by
    have := abs_add (x - y) (y - z)
    simpa using this
  have : |y| * e1 ≤ (|z| + |z| * e2) * e1 := by gcongr
  nlinarith

/-- Relative error of a quotient with a positive denominator. -/
theorem rel_div (D d B b e : ℚ) (hb : 0 < b) (hD : |D - d| ≤ |d| * e) (hB : |B - b| ≤ |b| * e)
    (he0 : 0 ≤ e) (he1 : e < 1) : |D / B - d / b| ≤ |d / b| * (2 * e / (1 - e)) := by
  rw [abs_of_pos hb] at hB
  have hBlow : b * (1 - e) ≤ B := by
    have := (abs_le.mp hB).1
    linarith
  have hBpos : 0 < B := lt_of_lt_of_le (by nlinarith) hBlow
  have h1e : 0 < 1 - e := by linarith
  have e1 : D / B - d / b = ((D - d) * b - d * (B - b)) / (B * b) := by
    field_simp
    ring
  rw [e1, abs_div, abs_mul B b, abs_of_pos hBpos, abs_of_pos hb, abs_div, abs_of_pos hb]
  rw [div_le_iff₀ (by positivity)]
  have hnum : |(D - d) * b - d * (B - b)| ≤ |d| * e * b + |d| * (b * e) := by
    have h := abs_sub ((D - d) * b) (d * (B - b))
    have ha : |(D - d) * b| ≤ |d| * e * b := by
      rw [abs_mul, abs_of_pos hb]
      gcongr
    have hb' : |d * (B - b)| ≤ |d| * (b * e) := by
      rw [abs_mul]
      gcongr
    linarith
  have hden : |d| / b * (2 * e / (1 - e)) * (B * b) = |d| * (2 * e) * (B / (1 - e)) := by
    field_simp
    ring
  rw [hden]
  have hB1 : b ≤ B / (1 - e) := by
    rw [le_div_iff₀ h1e]
    exact hBlow
  have : |d| * (2 * e) * b ≤ |d| * (2 * e) * (B / (1 - e)) := by gcongr
  linarith

theorem rel_mul_right (x y k e : ℚ) (h : |x - y| ≤ |y| * e) : |x * k - y * k| ≤ |y * k| * e := by
  rw [← sub_mul, abs_mul, abs_mul]
  have : |x - y| * |k| ≤ |y| * e * |k| := by gcongr
  linarith

theorem percentage_delta_eq (b c : Int) (hlo : -2 ^ 63 ≤ b - c) (hhi : b - c < 2 ^ 63) :
    percentage_delta b c
      = to_double (to_double (to_double ((b : ℚ) - c) / to_double b) * 100) := by
  unfold percentage_delta
  rw [sub_int64_of_counts b c hlo hhi]
  push_cast
  rfl

theorem delta_sign (b d : ℚ) (hb : 0 < b) :
    (d = 0 → to_double (to_double (to_double d / to_double b) * 100) = 0)
    ∧ (0 < d → 0 < to_double (to_double (to_double d / to_double b) * 100))
    ∧ (d < 0 → to_double (to_double (to_double d / to_double b) * 100) < 0) := by
  have hB := to_double_pos b hb
  refine ⟨?_, ?_, ?_⟩
  · intro h
    subst h
    simp [to_double_zero]
  · intro h
    have hD := to_double_pos d h
    have hQ := to_double_pos _ (div_pos hD hB)
    exact to_double_pos _ (by positivity)
  · intro h
    have hD := to_double_neg d h
    have hQ := to_double_neg _ (div_neg_of_neg_of_pos hD hB)
    exact to_double_neg _ (by linarith)

theorem delta_error (b d : ℚ) (hb : 0 < b) :
    |to_double (to_double (to_double d / to_double b) * 100) - d / b * 100|
      ≤ |d / b * 100| * (1 / 2 ^ 50) := by
  have hD := to_double_error d
  have hB := to_double_error b
  have hdiv := rel_div (to_double d) d (to_double b) b (1 / 2 ^ 53) hb hD hB (by norm_num)
    (by norm_num)
  have hQ := to_double_error (to_double d / to_double b)
  have hQd := rel_trans _ _ _ _ _ hQ hdiv (by norm_num)
  have hQ100 := rel_mul_right _ _ 100 _ hQd
  have hR := to_double_error (to_double (to_double d / to_double b) * 100)
  have hfin := rel_trans _ _ _ _ _ hR hQ100 (by norm_num)
  refine le_trans hfin ?_
  gcongr
  norm_num

/-- C11, as stated, fails: for a baseline of 3 ns and a candidate of 2 ns the
percentage `main` computes is the `double` `2345624805922133 / 2^46`
(33.33333333333333), not the rational `(3 - 2) / 3 * 100 = 100 / 3`. -/
theorem percentage_delta_not_exact :
    percentage_delta 3 2 = 2345624805922133 / 70368744177664
    ∧ percentage_delta 3 2 ≠ ((3 : ℚ) - 2) / 3 * 100 := by
  refine ⟨percentage_delta_three_two, ?_⟩
  rw [percentage_delta_three_two]
  norm_num

/-- C11, amended: for every baseline count `b > 0` and candidate count `c`
(64-bit nanosecond counts whose difference `b - c` is again a 64-bit count),
the percentage `main` computes in `double` is 0 when `c = b`, positive exactly
when `c < b` and negative exactly when `c > b`, and it differs from the
rational `(b - c) / b * 100` by at most `2^-50` of that value. -/
theorem percentage_delta_sign_error (b c : Int) (hb : 0 < b) (hb2 : b < 2 ^ 63)
    (hc : -2 ^ 63 ≤ c) (hc2 : c < 2 ^ 63) (hd : b - c < 2 ^ 63) :
    (c = b → percentage_delta b c = 0)
    ∧ (0 < percentage_delta b c ↔ c < b)
    ∧ (percentage_delta b c < 0 ↔ b < c)
    ∧ |percentage_delta b c - ((b : ℚ) - c) / b * 100|
        ≤ |((b : ℚ) - c) / b * 100| * (1 / 2 ^ 50) := by
  have hbq : (0 : ℚ) < (b : ℚ) := by exact_mod_cast hb
  obtain ⟨hz, hp, hn⟩ := delta_sign (b : ℚ) ((b : ℚ) - c) hbq
  rw [percentage_delta_eq b c (by omega) hd]
  have hd0 : (b : ℚ) - c = 0 ↔ c = b := by
    rw [sub_eq_zero]
    exact ⟨fun h => by exact_mod_cast h.symm, fun h => by exact_mod_cast h.symm⟩
  have hdp : 0 < (b : ℚ) - c ↔ c < b := by
    rw [sub_pos]
    exact_mod_cast Iff.rfl
  have hdn : (b : ℚ) - c < 0 ↔ b < c := by
    rw [sub_neg]
    exact_mod_cast Iff.rfl
  refine ⟨fun h => hz (hd0.mpr h), ⟨?_, fun h => hp (hdp.mpr h)⟩,
    ⟨?_, fun h => hn (hdn.mpr h)⟩, delta_error (b : ℚ) ((b : ℚ) - c) hbq⟩
  · intro h
    rcases lt_trichotomy c b with h1 | h1 | h1
    · exact h1
    · rw [hz (hd0.mpr h1)] at h
      exact absurd h (lt_irrefl 0)
    · exact absurd h (not_lt.mpr (le_of_lt (hn (hdn.mpr h1))))
  · intro h
    rcases lt_trichotomy c b with h1 | h1 | h1
    · exact absurd h (not_lt.mpr (le_of_lt (hp (hdp.mpr h1))))
    · rw [hz (hd0.mpr h1)] at h
      exact absurd h (lt_irrefl 0)
    · exact h1

/-- Witness for C11 (amended): a baseline of 3 ns and a candidate of 2 ns. -/
theorem percentage_delta_sign_error_witness :
    (0 : Int) < 3 ∧ (3 : Int) < 2 ^ 63 ∧ -(2 : Int) ^ 63 ≤ 2 ∧ (2 : Int) < 2 ^ 63
    ∧ (3 : Int) - 2 < 2 ^ 63
    ∧ (0 < percentage_delta 3 2 ↔ (2 : Int) < 3)
    ∧ |percentage_delta 3 2 - (((3 : Int) : ℚ) - ((2 : Int) : ℚ)) / ((3 : Int) : ℚ) * 100|
        ≤ |(((3 : Int) : ℚ) - ((2 : Int) : ℚ)) / ((3 : Int) : ℚ) * 100| * (1 / 2 ^ 50) :=
  ⟨by decide, by decide, by decide, by decide, by decide,
   (percentage_delta_sign_error 3 2 (by decide) (by decide) (by decide) (by decide)
      (by decide)).2.1,
   (percentage_delta_sign_error 3 2 (by decide) (by decide) (by decide) (by decide)
      (by decide)).2.2.2⟩

/-! ## Distribution of the packet lengths -/

theorem packet_length_natCast (v : Nat) :
    packet_length (v : Int) = ((v % 200 : Nat) : Int) + 100 := by
  unfold packet_length
  rw [Int.tmod_eq_emod (Int.ofNat_nonneg v) (by norm_num)]
  norm_cast

/-- Among the source values `0 .. n-1`, those from which the length
`100 + r` is computed are the ones congruent to `r` modulo 200. -/
theorem count_packet_length (n r : Nat) (hr : r < 200) :
    Nat.count (fun v => packet_length (v : Int) = 100 + (r : Int)) n
      = n / 200 + if r < n % 200 then 1 else 0 := by
  have hiff : ∀ v : Nat, packet_length (v : Int) = 100 + (r : Int) ↔ v ≡ r [MOD 200] := by
    intro v
    rw [packet_length_natCast]
    unfold Nat.ModEq
    rw [Nat.mod_eq_of_lt hr]
    constructor
    · intro h
      have : ((v % 200 : Nat) : Int) = (r : Int) := by linarith
      exact_mod_cast this
    · intro h
      rw [h]
      ring
  have hcount : Nat.count (fun v => packet_length (v : Int) = 100 + (r : Int)) n
      = Nat.count (fun v => v ≡ r [MOD 200]) n :=
    le_antisymm (Nat.count_mono_left (fun k hk => (hiff k).mp hk))
      (Nat.count_mono_left (fun k hk => (hiff k).mpr hk))
  rw [hcount, Nat.count_modEq_card n (by norm_num : 0 < 200) r, Nat.mod_eq_of_lt hr]

theorem length_weight_eq (r : Nat) (hr : r < 200) :
    length_weight (100 + (r : Int)) = if r < 48 then 10737419 else 10737418 := by
  unfold length_weight
  rw [count_packet_length (RAND_MAX + 1) r hr]
  have hd : (RAND_MAX + 1) / 200 = 10737418 := by unfold RAND_MAX; norm_num
  have hm : (RAND_MAX + 1) % 200 = 48 := by unfold RAND_MAX; norm_num
  rw [hd, hm]
  by_cases h : r < 48
  · rw [if_pos h, if_pos h]
  · rw [if_neg h, if_neg h]

/-- C12, as stated, fails: with `RAND_MAX = 2^31 - 1` the length 100 is
computed from 10737419 values of the random source and the length 299 from
10737418, so the two are not equally likely under a uniform source. -/
theorem length_weight_not_constant :
    length_weight 100 = 10737419 ∧ length_weight 299 = 10737418
      ∧ length_weight 100 ≠ length_weight 299 := by
  have h0 := length_weight_eq 0 (by norm_num)
  have h199 := length_weight_eq 199 (by norm_num)
  norm_num at h0 h199
  refine ⟨h0, h199, ?_⟩
  rw [h0, h199]
  norm_num

/-- One round of the loop of `randomizePackets` records the length that
`packet_length` computes from the value the random source returns. -/
theorem randomizePackets_loop_one (rand : Nat → Nat) (pos : Nat) :
    ∃ buf pos1, randomizePackets_loop (fun i => (rand i : Int)) 1 [] pos
      = some ([{ buf := buf, size := packet_length (rand pos : Int) }], pos1) := by
  obtain ⟨out, pos1, h, hlen, _⟩ := randomizePackets_loop_spec (fun i => (rand i : Int))
    (fun i => Int.ofNat_nonneg _) 1 [] pos
  have h0 : 0 ≤ ((rand pos : Int)).tmod 200 := Int.tmod_nonneg 200 (Int.ofNat_nonneg _)
  have hmk : make_unique (((rand pos : Int)).tmod 200 + 100)
      = some (List.replicate (((rand pos : Int)).tmod 200 + 100).toNat 0) := by
    unfold make_unique
    rw [if_pos (by omega)]
  simp only [randomizePackets_loop, hmk, List.nil_append] at h ⊢
  cases hb : randomizeBuffer (fun i => (rand i : Int))
      (List.replicate (((rand pos : Int)).tmod 200 + 100).toNat 0)
      (((rand pos : Int)).tmod 200 + 100) (pos + 1) with
  | none => rw [hb] at h; cases h
  | some r => exact ⟨r.1, r.2, rfl⟩

/-- C12, amended: `rand() % 200 + 100` computes every length of `100 .. 299`,
and with `RAND_MAX = 2^31 - 1` each of the lengths `100 .. 147` from 10737419
values of the random source and each of the lengths `148 .. 299` from
10737418 (`2^31 = 200 * 10737418 + 48`): under a uniform source the lengths
are nearly, not exactly, equally likely. -/
theorem length_weight_values (r : Fin 200) :
    length_weight (100 + (r.val : Int)) = (if r.val < 48 then 10737419 else 10737418)
    ∧ packet_length (r.val : Int) = 100 + (r.val : Int)
    ∧ (∀ (rand : Nat → Nat) (pos : Nat), ∃ buf pos1,
        randomizePackets_loop (fun i => (rand i : Int)) 1 [] pos
          = some ([{ buf := buf, size := packet_length (rand pos : Int) }], pos1)) := by
  refine ⟨length_weight_eq r.val r.isLt, ?_, randomizePackets_loop_one⟩
  rw [packet_length_natCast, Nat.mod_eq_of_lt r.isLt]
  ring

/-! ## Console output -/

/-- C18: `printMD5` on the digest bytes of the empty message,
`d4 1d 8c d9 8f 00 b2 04 e9 80 09 98 ec f8 42 7e`, writes 29 digits, not 32:
the bytes `00`, `04` and `09` come out as the single digits `0`, `4` and `9`;
and two different digests, one starting `01 23` and one starting `12 03`, are
written as the same text. -/
theorem printMD5_drops_leading_zero :
    printMD5 [0xd4, 0x1d, 0x8c, 0xd9, 0x8f, 0x00, 0xb2, 0x04,
              0xe9, 0x80, 0x09, 0x98, 0xec, 0xf8, 0x42, 0x7e]
      = some "d41d8cd98f0b24e980998ecf8427e\n"
    ∧ printMD5 [0x01, 0x23, 0x55, 0x55, 0x55, 0x55, 0x55, 0x55,
                0x55, 0x55, 0x55, 0x55, 0x55, 0x55, 0x55, 0x55]
      = printMD5 [0x12, 0x03, 0x55, 0x55, 0x55, 0x55, 0x55, 0x55,
                  0x55, 0x55, 0x55, 0x55, 0x55, 0x55, 0x55, 0x55] := by
  decide

end MD5Bench
